import Mathlib

/-
Verification of the jobs-list view model of the Slurmer repository
(src/src/ui/jobslist.rs) against its natural-language specification.

The Rust module is shallowly embedded below.  `Vec<T>` becomes `List T`,
`HashMap<String, Vec<usize>>` becomes an association list built in
insertion order (the map is only ever used for point lookups, so the
association-list representation is observation-equivalent),
`HashSet<String>` becomes a duplicate-free `List String` with
guarded insert / filter-based remove, and `TableState` is represented by
its only observable component here, the optional selected row index.
-/

set_option autoImplicit false

/-- Modelled from the spec: `crate::slurm::Job` is external to the provided
source.  Per spec §3 a job is an opaque record whose identifier string is its
identity; of its descriptive fields only `id` and `name` are read by the
embedded operations, so only those are carried. -/
structure Job where
  id : String
  name : String
deriving DecidableEq

instance : Inhabited Job := ⟨⟨"", ""⟩⟩

/-- Visible row type for grouped rendering (enum `VisibleRow` in the source):
a group header row holding the group key and the representative job index, or
a concrete job row holding the index into `jobs`. -/
inductive VisibleRow where
  | group (key : String) (rep_job_index : Nat)
  | job (job_index : Nat)
deriving DecidableEq

/-- Modelled from the spec: `crate::ui::columns::JobColumn` is external to the
provided source.  Spec §6/§9 describe displayed columns as payload-free kind
tags; the variant names are those matched in the source's `render`. -/
inductive JobColumn where
  | Id | Name | User | State | Partition | QoS | Nodes | Node | CPUs
  | Time | Memory | Account | Priority | WorkDir | SubmitTime | StartTime
  | EndTime | PReason
deriving DecidableEq

/-- Modelled from the spec: sort direction of `crate::ui::columns::SortOrder`. -/
inductive SortOrder where
  | Ascending | Descending
deriving DecidableEq

/-- Modelled from the spec: `crate::ui::columns::SortColumn`, a pair of a
column kind and a direction (spec §6: "(column-kind, direction) pairs"). -/
structure SortColumn where
  column : JobColumn
  order : SortOrder
deriving DecidableEq

/-- The jobs-list view state (struct `JobsList` in the source).  The `state`
field models `TableState` by its selected row index (`state.selected()`). -/
structure JobsList where
  state : Option Nat
  jobs : List Job
  selected_jobs : List Nat
  sort_column : Nat
  sort_ascending : Bool
  group_map : List (String × List Nat)
  expanded_groups : List String
  visible_rows : List VisibleRow
deriving DecidableEq

/-- Rust `Iterator::position` / `str::find`: index of the first element
satisfying the predicate. -/
def position {α : Type} (p : α → Bool) : List α → Option Nat
  | [] => none
  | x :: xs => if p x then some 0 else (position p xs).map (· + 1)

/-- Character-level core of `compute_group_key`.  The Rust code works with
byte positions, but the separator `'_'` is ASCII, so the first `'_'` byte of a
valid UTF-8 string is also its first `'_'` character and `split_at` at that
byte offset is exactly the character-level take/drop used here. -/
def computeGroupKeyAux (cs : List Char) : List Char :=
  match position (fun c => c = '_') cs with
  | some pos =>
      let pre := cs.take pos
      let suf := (cs.drop pos).drop 1
      if !suf.isEmpty && suf.all (fun c => c.isDigit) then pre else cs
  | none => cs

/-- Embeds `JobsList::compute_group_key`: for array jobs like `"12345_7"`
returns `"12345"`; otherwise the identifier unchanged. -/
def compute_group_key (job : Job) : String :=
  ⟨computeGroupKeyAux job.id.data⟩

/-- Group key of the job stored at index `i` of the snapshot. -/
def keyOf (jobs : List Job) (i : Nat) : String :=
  compute_group_key (jobs.getD i default)

/-- One step of building the group map:
`self.group_map.entry(key).or_default().push(idx)` on the association-list
representation (append to the existing bucket, or create one at the end). -/
def groupMapInsert (m : List (String × List Nat)) (key : String) (idx : Nat) :
    List (String × List Nat) :=
  match m with
  | [] => [(key, [idx])]
  | (k, v) :: rest =>
      if k = key then (k, v ++ [idx]) :: rest
      else (k, v) :: groupMapInsert rest key idx

/-- Enumerate a job list with indices starting at `k`
(Rust `jobs.iter().enumerate()` with an offset for the proofs). -/
def enumJobs (k : Nat) : List Job → List (Nat × Job)
  | [] => []
  | j :: js => (k, j) :: enumJobs (k + 1) js

/-- First pass of `rebuild_groups_and_rows`: fold the enumerated snapshot into
the group map. -/
def buildGroupMapAux (m : List (String × List Nat)) :
    List (Nat × Job) → List (String × List Nat)
  | [] => m
  | (i, job) :: rest => buildGroupMapAux (groupMapInsert m (compute_group_key job) i) rest

/-- The complete group map of a snapshot (`group_map` after a rebuild). -/
def buildGroupMap (jobs : List Job) : List (String × List Nat) :=
  buildGroupMapAux [] (enumJobs 0 jobs)

/-- Embeds `HashMap::get` on the association-list representation. -/
def mapGet? (m : List (String × List Nat)) (key : String) : Option (List Nat) :=
  match m with
  | [] => none
  | (k, v) :: rest => if k = key then some v else mapGet? rest key

/-- Embeds `self.group_map.get(&key).cloned().unwrap_or_default()`. -/
def mapGetD (m : List (String × List Nat)) (key : String) : List Nat :=
  (mapGet? m key).getD []

/-- The member bucket of a group key. -/
def bucket (jobs : List Job) (key : String) : List Nat :=
  mapGetD (buildGroupMap jobs) key

/-- The inner loop of the expanded case of `rebuild_groups_and_rows`:
`for m in members { if !job_displayed.contains(&m) { push Job row; mark } }`.
Returns the emitted rows and the updated displayed set. -/
def pushMembers : List Nat → List Nat → List VisibleRow × List Nat
  | [], displayed => ([], displayed)
  | m :: rest, displayed =>
      if m ∈ displayed then pushMembers rest displayed
      else
        let r := pushMembers rest (m :: displayed)
        (VisibleRow.job m :: r.1, r.2)

/-- Second pass of `rebuild_groups_and_rows`: build visible rows in original
order, threading the `group_header_added` and `job_displayed` sets. -/
def buildRowsAux (gm : List (String × List Nat)) (expanded : List String) :
    List (Nat × Job) → List String → List Nat → List VisibleRow
  | [], _, _ => []
  | (idx, job) :: rest, headerAdded, displayed =>
      if idx ∈ displayed then buildRowsAux gm expanded rest headerAdded displayed
      else
        let key := compute_group_key job
        let members := mapGetD gm key
        if members.length ≤ 1 then
          VisibleRow.job idx :: buildRowsAux gm expanded rest headerAdded (idx :: displayed)
        else
          let headerAdded2 := if key ∈ headerAdded then headerAdded else key :: headerAdded
          let headerRows := if key ∈ headerAdded then [] else [VisibleRow.group key idx]
          if key ∈ expanded then
            let r := pushMembers members displayed
            headerRows ++ r.1 ++ buildRowsAux gm expanded rest headerAdded2 r.2
          else
            headerRows ++ buildRowsAux gm expanded rest headerAdded2 displayed

/-- The visible rows produced by `rebuild_groups_and_rows` for a snapshot,
group map and expansion set. -/
def buildVisibleRows (jobs : List Job) (gm : List (String × List Nat))
    (expanded : List String) : List VisibleRow :=
  buildRowsAux gm expanded (enumJobs 0 jobs) [] []

/-- Embeds `JobsList::rebuild_groups_and_rows`: rebuild group mapping and
visible rows. -/
def rebuild_groups_and_rows (st : JobsList) : JobsList :=
  let gm := buildGroupMap st.jobs
  { st with group_map := gm,
            visible_rows := buildVisibleRows st.jobs gm st.expanded_groups }

/-- Embeds `JobsList::new`. -/
def JobsList.new : JobsList :=
  { state := none
    jobs := []
    selected_jobs := []
    sort_column := 0
    sort_ascending := true
    group_map := []
    expanded_groups := []
    visible_rows := [] }

/-- Embeds `JobsList::update_jobs`: replace the snapshot, rebuild grouping and
visible rows, then revalidate the cursor. -/
def update_jobs (st : JobsList) (jobs : List Job) : JobsList :=
  let st1 := rebuild_groups_and_rows { st with jobs := jobs }
  match st1.state with
  | some selected =>
      if st1.visible_rows.length ≤ selected then { st1 with state := some 0 } else st1
  | none =>
      if st1.jobs.isEmpty then st1 else { st1 with state := some 0 }

/-- Embeds `JobsList::toggle_select`: toggle job selection; on a group header
toggle the whole group. -/
def toggle_select (st : JobsList) : JobsList :=
  match st.state with
  | none => st
  | some visible_idx =>
      match st.visible_rows.get? visible_idx with
      | some (VisibleRow.group key _) =>
          match mapGet? st.group_map key with
          | some indices =>
              if indices.all (fun i => st.selected_jobs.contains i) then
                { st with selected_jobs :=
                    st.selected_jobs.filter (fun i => !indices.contains i) }
              else
                { st with selected_jobs :=
                    (indices.foldl
                      (fun acc idx => if acc.contains idx then acc else acc ++ [idx])
                      st.selected_jobs) }
          | none => st
      | some (VisibleRow.job job_index) =>
          if st.selected_jobs.contains job_index then
            { st with selected_jobs := st.selected_jobs.filter (fun i => !(i == job_index)) }
          else
            { st with selected_jobs := st.selected_jobs ++ [job_index] }
      | none => st

/-- Embeds `JobsList::select_all`. -/
def select_all (st : JobsList) : JobsList :=
  { st with selected_jobs := List.range st.jobs.length }

/-- Embeds `JobsList::clear_selection`. -/
def clear_selection (st : JobsList) : JobsList :=
  { st with selected_jobs := [] }

/-- Embeds `JobsList::get_selected_jobs`: identifiers of the selected jobs,
skipping indices that no longer resolve. -/
def get_selected_jobs (st : JobsList) : List String :=
  st.selected_jobs.filterMap (fun i => (st.jobs.get? i).map (fun j => j.id))

/-- Embeds `JobsList::update_sort`: bind the first sort spec to a
displayed-column position and a direction (`matches!(order, Ascending)`). -/
def update_sort (st : JobsList) (columns : List JobColumn)
    (sort_columns : List SortColumn) : JobsList :=
  match sort_columns.head? with
  | none => st
  | some first_sort =>
      let column_index := (position (fun col => col = first_sort.column) columns).getD 0
      { st with
          sort_column := column_index,
          sort_ascending :=
            match first_sort.order with
            | SortOrder.Ascending => true
            | SortOrder.Descending => false }

/-- Embeds `JobsList::next`: move the cursor down with wraparound; the Bool
reports whether the selection changed. -/
def next (st : JobsList) : JobsList × Bool :=
  if st.visible_rows.isEmpty then (st, false)
  else
    let old := st.state
    let i := match old with
      | some i => if st.visible_rows.length - 1 ≤ i then 0 else i + 1
      | none => 0
    ({ st with state := some i }, old != some i)

/-- Embeds `JobsList::previous`: move the cursor up with wraparound; the Bool
reports whether the selection changed. -/
def previous (st : JobsList) : JobsList × Bool :=
  if st.visible_rows.isEmpty then (st, false)
  else
    let old := st.state
    let i := match old with
      | some i => if i = 0 then st.visible_rows.length - 1 else i - 1
      | none => 0
    ({ st with state := some i }, old != some i)

/-- Predicate matched by `toggle_group_expand`'s cursor-restore search:
`matches!(vr, VisibleRow::Group { key: k, .. } if *k == key)`. -/
def isGroupOf (key : String) : VisibleRow → Bool
  | VisibleRow.group k _ => k = key
  | VisibleRow.job _ => false

/-- Embeds `JobsList::toggle_group_expand`: flip the expansion state of the
group under the cursor, rebuild, and keep the cursor on the group header when
one still exists. -/
def toggle_group_expand (st : JobsList) : JobsList :=
  match st.state with
  | none => st
  | some visible_idx =>
      let target_key : Option String :=
        match st.visible_rows.get? visible_idx with
        | some (VisibleRow.group key _) => some key
        | some (VisibleRow.job job_index) =>
            some (compute_group_key (st.jobs.getD job_index default))
        | none => none
      let st1 :=
        match target_key with
        | some key =>
            if key ∈ st.expanded_groups then
              { st with expanded_groups := st.expanded_groups.filter (fun k => !(k == key)) }
            else
              { st with expanded_groups := key :: st.expanded_groups }
        | none => st
      let st2 := rebuild_groups_and_rows st1
      match target_key with
      | some key =>
          match position (isGroupOf key) st2.visible_rows with
          | some idx => { st2 with state := some idx }
          | none => st2
      | none => st2

/-- UTF-8 byte length of a string, as Rust's `str::len`. -/
def utf8Len (cs : List Char) : Nat := (cs.map Char.utf8Size).sum

/-- Rust byte slice `&s[0..b]` on the character list: the characters making up
the first `b` bytes, or `none` when `b` is not a character boundary (in Rust
this is an index panic). -/
def takeBytes : List Char → Nat → Option (List Char)
  | _, 0 => some []
  | [], _ + 1 => none
  | c :: rest, b + 1 =>
      if c.utf8Size ≤ b + 1 then (takeBytes rest (b + 1 - c.utf8Size)).map (fun l => c :: l)
      else none

/-- The Name cell of `JobsList::render`:
`if job.name.len() > 30 { format!("{}...", &job.name[0..27]) } else { name }`.
`none` models the process-halting slice panic. -/
def renderNameCell (name : String) : Option String :=
  if 30 < utf8Len name.data then
    (takeBytes name.data 27).map (fun pre => String.mk (pre ++ "...".data))
  else some name

/-- The rows that the single pass of `rebuild_groups_and_rows` emits while
visiting job index `i`: a plain row for a singleton group, the header (plus
all members when expanded) at the first member of a multi-member group, and
nothing at its later members. -/
def rowsFor (jobs : List Job) (expanded : List String) (i : Nat) : List VisibleRow :=
  if (bucket jobs (keyOf jobs i)).length ≤ 1 then [VisibleRow.job i]
  else if (bucket jobs (keyOf jobs i)).head? = some i then
    (if keyOf jobs i ∈ expanded then
      VisibleRow.group (keyOf jobs i) i :: (bucket jobs (keyOf jobs i)).map VisibleRow.job
    else [VisibleRow.group (keyOf jobs i) i])
  else []

/-- Loop invariant for `group_header_added` after the first `k` jobs have been
visited: a key was added exactly when it names a multi-member group whose
first member lies before `k`. -/
def InvHA (jobs : List Job) (k : Nat) (key : String) : Prop :=
  2 ≤ (bucket jobs key).length ∧
    ∃ h, (bucket jobs key).head? = some h ∧ h < k

/-- Loop invariant for `job_displayed` after the first `k` jobs have been
visited: an index was displayed exactly when it is a singleton-group job
already visited, or a member of an expanded multi-member group whose first
member lies before `k`. -/
def InvD (jobs : List Job) (expanded : List String) (k : Nat) (i : Nat) : Prop :=
  i < jobs.length ∧
    (((bucket jobs (keyOf jobs i)).length ≤ 1 ∧ i < k) ∨
     (2 ≤ (bucket jobs (keyOf jobs i)).length ∧ keyOf jobs i ∈ expanded ∧
      ∃ h, (bucket jobs (keyOf jobs i)).head? = some h ∧ h < k))

/-- Projection extracting the job index of a `JobRow`. -/
def jobIndex? : VisibleRow → Option Nat
  | VisibleRow.job i => some i
  | VisibleRow.group _ _ => none

/-- The group key a visible row is attributed to: a header's own key, or the
recomputed key of a job row's job. -/
def rowKey (jobs : List Job) : VisibleRow → String
  | VisibleRow.group k _ => k
  | VisibleRow.job i => keyOf jobs i

/-- The scenario state of spec §8.6: snapshot
`["100", "200_1", "200_2", "300"]` with group `"200"` expanded. -/
def scenarioState : JobsList :=
  { JobsList.new with
      jobs := [⟨"100", ""⟩, ⟨"200_1", ""⟩, ⟨"200_2", ""⟩, ⟨"300", ""⟩],
      expanded_groups := ["200"] }

instance : Inhabited JobColumn := ⟨JobColumn.Id⟩

/-- A reachable state whose cursor sits on the header of group `"200"`
(members `{0, 1}`) while only member 0 is selected: reached by updating with
`["200_1", "200_2"]`, expanding the group, moving onto the first member row,
selecting it, and moving back up to the header. -/
def partialSelState : JobsList :=
  (previous (toggle_select ((next (toggle_group_expand
    (update_jobs JobsList.new [⟨"200_1", ""⟩, ⟨"200_2", ""⟩]))).1))).1

/-- The state after one header toggle from `partialSelState`: all members of
group `"200"` are selected. -/
def allSelState : JobsList := toggle_select partialSelState

/-- The Expansion Set after flipping `key`:
`HashSet::remove` / `HashSet::insert` on the list model. -/
def flipList (st : JobsList) (key : String) : List String :=
  if key ∈ st.expanded_groups then st.expanded_groups.filter (fun k => !(k == key))
  else key :: st.expanded_groups

/-- The tail of `toggle_group_expand` once the target key is resolved: flip
the key in the Expansion Set, rebuild, and move the cursor onto the key's
header row when one exists. -/
def toggleExpandResult (st : JobsList) (key : String) : JobsList :=
  let st1 :=
    if key ∈ st.expanded_groups then
      { st with expanded_groups := st.expanded_groups.filter (fun k => !(k == key)) }
    else { st with expanded_groups := key :: st.expanded_groups }
  let st2 := rebuild_groups_and_rows st1
  match position (isGroupOf key) st2.visible_rows with
  | some idx => { st2 with state := some idx }
  | none => st2

/-- What claim C8 asserts of `toggle_group_expand` once the target key is
`key`: the key's Expansion-Set membership is flipped (others untouched), the
snapshot and selection are untouched, the rows are rebuilt under the new
Expansion Set, and the cursor is moved to the key's header row exactly when
the rebuilt rows still contain one, being left as-is otherwise. -/
def toggleExpandPost (st : JobsList) (key : String) : Prop :=
  (∀ k2, k2 ∈ (toggle_group_expand st).expanded_groups ↔
      (if k2 = key then key ∉ st.expanded_groups else k2 ∈ st.expanded_groups))
  ∧ (toggle_group_expand st).jobs = st.jobs
  ∧ (toggle_group_expand st).selected_jobs = st.selected_jobs
  ∧ (toggle_group_expand st).visible_rows
      = buildVisibleRows st.jobs (buildGroupMap st.jobs)
          (toggle_group_expand st).expanded_groups
  ∧ (∀ idx, position (isGroupOf key) (toggle_group_expand st).visible_rows = some idx →
      (toggle_group_expand st).state = some idx)
  ∧ (position (isGroupOf key) (toggle_group_expand st).visible_rows = none →
      (toggle_group_expand st).state = st.state)
  ∧ (position (isGroupOf key) (toggle_group_expand st).visible_rows = none ↔
      ∀ rep2, VisibleRow.group key rep2 ∉ (toggle_group_expand st).visible_rows)

theorem position_eq_none {α : Type} (p : α → Bool) (l : List α) :
    position p l = none ↔ ∀ x ∈ l, p x = false := by
  induction l with
  | nil => simp [position]
  | cons x xs ih =>
      by_cases h : p x <;> simp [position, h, ih]

theorem position_append_of_first {α : Type} (p : α → Bool) (l s : List α) (c : α)
    (hl : ∀ x ∈ l, p x = false) (hc : p c = true) :
    position p (l ++ c :: s) = some l.length := by
  induction l with
  | nil => simp [position, hc]
  | cons x xs ih =>
      have hx : p x = false := hl x (by simp)
      have ih' := ih (fun y hy => hl y (by simp [hy]))
      simp [position, hx, ih']

theorem computeGroupKeyAux_split (p s : List Char) (hp : '_' ∉ p) :
    computeGroupKeyAux (p ++ '_' :: s) =
      if !s.isEmpty && s.all (fun c => c.isDigit) then p else p ++ '_' :: s := by
  have h1 : position (fun c => decide (c = '_')) (p ++ '_' :: s) = some p.length := by
    apply position_append_of_first
    · intro x hx
      simp only [decide_eq_false_iff_not]
      exact fun he => hp (he ▸ hx)
    · simp
  have htake : (p ++ '_' :: s).take p.length = p := List.take_left p ('_' :: s)
  have hdrop : (p ++ '_' :: s).drop p.length = '_' :: s := List.drop_left p ('_' :: s)
  simp only [computeGroupKeyAux, h1, htake, hdrop, List.drop_succ_cons, List.drop_zero]

theorem computeGroupKeyAux_no_sep (cs : List Char) (h : '_' ∉ cs) :
    computeGroupKeyAux cs = cs := by
  have hnone : position (fun c => decide (c = '_')) cs = none := by
    rw [position_eq_none]
    intro x hx
    simp only [decide_eq_false_iff_not]
    exact fun he => h (he ▸ hx)
  simp [computeGroupKeyAux, hnone]

/-- Claim C3: `compute_group_key` returns the part before the first `'_'`
exactly when the suffix after that first `'_'` is non-empty and all decimal
digits, and returns the identifier unchanged in every other case; in
particular `"12345_7" ↦ "12345"` while `"12345"`, `"12345_abc"` and
`"12345_7_8"` map to themselves. -/
theorem claim_C3 :
    (∀ p s : List Char, '_' ∉ p →
        computeGroupKeyAux (p ++ '_' :: s) =
          if s ≠ [] ∧ (∀ c ∈ s, c.isDigit) then p else p ++ '_' :: s)
    ∧ (∀ cs : List Char, '_' ∉ cs → computeGroupKeyAux cs = cs)
    ∧ compute_group_key ⟨"12345_7", ""⟩ = "12345"
    ∧ compute_group_key ⟨"12345", ""⟩ = "12345"
    ∧ compute_group_key ⟨"12345_abc", ""⟩ = "12345_abc"
    ∧ compute_group_key ⟨"12345_7_8", ""⟩ = "12345_7_8" := by
  refine ⟨?_, computeGroupKeyAux_no_sep, by decide, by decide, by decide, by decide⟩
  intro p s hp
  rw [computeGroupKeyAux_split p s hp]
  by_cases hs : s = []
  · subst hs; simp
  · by_cases hd : ∀ c ∈ s, c.isDigit
    · have hb : (!s.isEmpty && s.all fun c => c.isDigit) = true := by
        simp only [Bool.and_eq_true, Bool.not_eq_true', List.isEmpty_eq_false_iff_exists_mem,
          List.all_eq_true]
        refine ⟨?_, hd⟩
        cases s with
        | nil => exact absurd rfl hs
        | cons c cs => exact ⟨c, by simp⟩
      simp only [hb, if_true]
      rw [if_pos ⟨hs, hd⟩]
    · have hb : (!s.isEmpty && s.all fun c => c.isDigit) = false := by
        rw [Bool.and_eq_false_iff]
        right
        push_neg at hd
        obtain ⟨c, hc, hcd⟩ := hd
        exact List.all_eq_false.mpr ⟨c, hc, by simpa using hcd⟩
      have hprop : ¬ (s ≠ [] ∧ ∀ c ∈ s, c.isDigit) := fun h => hd h.2
      simp [hb, hprop]

/-- Witness for claim C3: the split characterization applied at the
identifier `"12345_7"`. -/
theorem claim_C3_witness :
    ('_' ∉ "12345".data) ∧
      computeGroupKeyAux ("12345".data ++ '_' :: "7".data) =
        (if "7".data ≠ [] ∧ (∀ c ∈ "7".data, c.isDigit) then "12345".data
         else "12345".data ++ '_' :: "7".data) :=
  ⟨by decide, claim_C3.1 ("12345".data) ("7".data) (by decide)⟩

theorem mapGetD_groupMapInsert (m : List (String × List Nat)) (key k : String) (idx : Nat) :
    mapGetD (groupMapInsert m key idx) k =
      if key = k then mapGetD m k ++ [idx] else mapGetD m k := by
  induction m with
  | nil =>
      by_cases h : key = k <;> simp [groupMapInsert, mapGetD, mapGet?, h]
  | cons pr rest ih =>
      obtain ⟨k', v⟩ := pr
      by_cases h1 : k' = key
      · subst h1
        by_cases h2 : k' = k
        · subst h2; simp [groupMapInsert, mapGetD, mapGet?]
        · have : ¬ k' = k := h2
          simp [groupMapInsert, mapGetD, mapGet?, this, h2]
      · by_cases h2 : k' = k
        · subst h2
          have hkk : ¬ key = k' := fun h => h1 h.symm
          simp [groupMapInsert, mapGetD, mapGet?, h1, hkk]
        · have ih' := ih
          simp only [mapGetD] at ih'
          simp [groupMapInsert, mapGetD, mapGet?, h1, h2, ih']

theorem mapGetD_buildGroupMapAux (l : List (Nat × Job)) (m : List (String × List Nat))
    (key : String) :
    mapGetD (buildGroupMapAux m l) key =
      mapGetD m key ++ (l.filter (fun p => compute_group_key p.2 = key)).map Prod.fst := by
  induction l generalizing m with
  | nil => simp [buildGroupMapAux]
  | cons p rest ih =>
      obtain ⟨i, job⟩ := p
      by_cases h : compute_group_key job = key
      · simp [buildGroupMapAux, ih, mapGetD_groupMapInsert, h]
      · simp [buildGroupMapAux, ih, mapGetD_groupMapInsert, h]

theorem bucket_eq_filter (jobs : List Job) (key : String) :
    bucket jobs key =
      ((enumJobs 0 jobs).filter (fun p => compute_group_key p.2 = key)).map Prod.fst := by
  unfold bucket buildGroupMap
  rw [mapGetD_buildGroupMapAux]
  simp [mapGetD, mapGet?]

theorem mem_enumJobs (jobs : List Job) (k : Nat) (p : Nat × Job) :
    p ∈ enumJobs k jobs ↔
      ∃ d, d < jobs.length ∧ p.1 = k + d ∧ p.2 = jobs.getD d default := by
  induction jobs generalizing k with
  | nil => simp [enumJobs]
  | cons j js ih =>
      simp only [enumJobs, List.mem_cons, ih (k + 1)]
      constructor
      · rintro (rfl | ⟨d, hd, h1, h2⟩)
        · exact ⟨0, by simp⟩
        · exact ⟨d + 1, by simp only [List.length_cons]; omega, by omega, by simpa using h2⟩
      · rintro ⟨d, hd, h1, h2⟩
        cases d with
        | zero =>
            left
            have : p.1 = k := by omega
            have h2' : p.2 = j := by simpa using h2
            cases p; simp_all
        | succ d' =>
            right
            refine ⟨d', ?_, by omega, by simpa using h2⟩
            simp only [List.length_cons] at hd
            omega

theorem mem_bucket (jobs : List Job) (key : String) (i : Nat) :
    i ∈ bucket jobs key ↔ i < jobs.length ∧ keyOf jobs i = key := by
  rw [bucket_eq_filter]
  simp only [List.mem_map, List.mem_filter, decide_eq_true_eq]
  constructor
  · rintro ⟨p, ⟨hp, hk⟩, rfl⟩
    obtain ⟨d, hd, h1, h2⟩ := (mem_enumJobs jobs 0 p).mp hp
    have : p.1 = d := by omega
    refine ⟨by omega, ?_⟩
    rw [keyOf, this, ← h2]
    exact hk
  · rintro ⟨hi, hk⟩
    refine ⟨(i, jobs.getD i default), ⟨?_, hk⟩, rfl⟩
    exact (mem_enumJobs jobs 0 _).mpr ⟨i, hi, by omega, rfl⟩

theorem enumJobs_fst_ge (jobs : List Job) (k : Nat) :
    ∀ p ∈ enumJobs k jobs, k ≤ p.1 := by
  induction jobs generalizing k with
  | nil => simp [enumJobs]
  | cons j js ih =>
      intro p hp
      simp only [enumJobs, List.mem_cons] at hp
      rcases hp with h | h
      · simp [h]
      · have := ih (k + 1) p h
        omega

theorem pairwise_enumJobs_fst (jobs : List Job) (k : Nat) :
    ((enumJobs k jobs).map Prod.fst).Pairwise (· < ·) := by
  induction jobs generalizing k with
  | nil => simp [enumJobs]
  | cons j js ih =>
      simp only [enumJobs, List.map_cons, List.pairwise_cons]
      refine ⟨?_, ih (k + 1)⟩
      intro x hx
      simp only [List.mem_map] at hx
      obtain ⟨p, hp, rfl⟩ := hx
      have := enumJobs_fst_ge js (k + 1) p hp
      omega

theorem bucket_pairwise (jobs : List Job) (key : String) :
    (bucket jobs key).Pairwise (· < ·) := by
  rw [bucket_eq_filter]
  exact List.Pairwise.sublist
    (List.Sublist.map Prod.fst (List.filter_sublist _)) (pairwise_enumJobs_fst jobs 0)

theorem bucket_nodup (jobs : List Job) (key : String) : (bucket jobs key).Nodup :=
  List.Pairwise.imp Nat.ne_of_lt (bucket_pairwise jobs key)

theorem head_lt_of_pairwise {l : List Nat} (hp : l.Pairwise (· < ·)) {h0 x : Nat}
    (hh : l.head? = some h0) (hx : x ∈ l) (hne : x ≠ h0) : h0 < x := by
  cases l with
  | nil => simp at hh
  | cons a t =>
      simp only [List.head?_cons, Option.some.injEq] at hh
      subst hh
      rcases List.mem_cons.mp hx with h | h
      · exact absurd h hne
      · exact (List.pairwise_cons.mp hp).1 x h

theorem bucket_head_lt (jobs : List Job) (key : String) {h0 x : Nat}
    (hh : (bucket jobs key).head? = some h0) (hx : x ∈ bucket jobs key) (hne : x ≠ h0) :
    h0 < x :=
  head_lt_of_pairwise (bucket_pairwise jobs key) hh hx hne

theorem bucket_key_of_mem (jobs : List Job) (key : String) {i : Nat}
    (h : i ∈ bucket jobs key) : keyOf jobs i = key :=
  ((mem_bucket jobs key i).mp h).2

theorem bucket_lt_length_of_mem (jobs : List Job) (key : String) {i : Nat}
    (h : i ∈ bucket jobs key) : i < jobs.length :=
  ((mem_bucket jobs key i).mp h).1

theorem self_mem_bucket (jobs : List Job) {i : Nat} (h : i < jobs.length) :
    i ∈ bucket jobs (keyOf jobs i) :=
  (mem_bucket jobs (keyOf jobs i) i).mpr ⟨h, rfl⟩

theorem bucket_def (jobs : List Job) (key : String) :
    mapGetD (buildGroupMap jobs) key = bucket jobs key := rfl

theorem key_of_head {jobs : List Job} {k : Nat} {key : String}
    (hh : (bucket jobs key).head? = some k) : keyOf jobs k = key := by
  refine bucket_key_of_mem jobs key (List.mem_of_mem_head? ?_)
  rw [hh]; rfl

theorem InvHA_mono {jobs : List Job} {k : Nat} {key : String} (h : InvHA jobs k key) :
    InvHA jobs (k + 1) key := by
  obtain ⟨h2, h0, hh, hk⟩ := h
  exact ⟨h2, h0, hh, by omega⟩

theorem InvHA_down {jobs : List Job} {k : Nat} {key : String}
    (hnk : 2 ≤ (bucket jobs key).length → (bucket jobs key).head? ≠ some k)
    (h : InvHA jobs (k + 1) key) : InvHA jobs k key := by
  obtain ⟨h2, h0, hh, hk⟩ := h
  refine ⟨h2, h0, hh, ?_⟩
  rcases Nat.lt_succ_iff_lt_or_eq.mp hk with h' | h'
  · exact h'
  · subst h'; exact absurd hh (hnk h2)

theorem InvD_mono {jobs : List Job} {expanded : List String} {k i : Nat}
    (h : InvD jobs expanded k i) : InvD jobs expanded (k + 1) i := by
  obtain ⟨hn, hA | hB⟩ := h
  · exact ⟨hn, Or.inl ⟨hA.1, by omega⟩⟩
  · obtain ⟨h2, hexp, h0, hh, hk⟩ := hB
    exact ⟨hn, Or.inr ⟨h2, hexp, h0, hh, by omega⟩⟩

theorem InvD_down {jobs : List Job} {expanded : List String} {k i : Nat}
    (hsing : ¬ (i = k ∧ (bucket jobs (keyOf jobs i)).length ≤ 1))
    (hmulti : (2 ≤ (bucket jobs (keyOf jobs i)).length ∧ keyOf jobs i ∈ expanded) →
        (bucket jobs (keyOf jobs i)).head? ≠ some k)
    (h : InvD jobs expanded (k + 1) i) : InvD jobs expanded k i := by
  obtain ⟨hn, hA | hB⟩ := h
  · refine ⟨hn, Or.inl ⟨hA.1, ?_⟩⟩
    rcases Nat.lt_succ_iff_lt_or_eq.mp hA.2 with h' | h'
    · exact h'
    · exact absurd ⟨h', hA.1⟩ hsing
  · obtain ⟨h2, hexp, h0, hh, hk⟩ := hB
    refine ⟨hn, Or.inr ⟨h2, hexp, h0, hh, ?_⟩⟩
    rcases Nat.lt_succ_iff_lt_or_eq.mp hk with h' | h'
    · exact h'
    · subst h'; exact absurd hh (hmulti ⟨h2, hexp⟩)

theorem pushMembers_spec (ms : List Nat) (d : List Nat) (hnd : ms.Nodup)
    (hfresh : ∀ m ∈ ms, m ∉ d) :
    (pushMembers ms d).1 = ms.map VisibleRow.job ∧
      ∀ i, (i ∈ (pushMembers ms d).2 ↔ i ∈ ms ∨ i ∈ d) := by
  induction ms generalizing d with
  | nil => simp [pushMembers]
  | cons m rest ih =>
      have hm : m ∉ d := hfresh m (by simp)
      have hmr : m ∉ rest := (List.nodup_cons.mp hnd).1
      have hnd' : rest.Nodup := (List.nodup_cons.mp hnd).2
      have hfresh' : ∀ x ∈ rest, x ∉ (m :: d) := by
        intro x hx
        simp only [List.mem_cons, not_or]
        exact ⟨fun he => hmr (he ▸ hx), hfresh x (by simp [hx])⟩
      obtain ⟨h1, h2⟩ := ih (m :: d) hnd' hfresh'
      constructor
      · simp only [pushMembers, if_neg hm, h1, List.map_cons]
      · intro i
        simp only [pushMembers, if_neg hm, h2 i, List.mem_cons]
        tauto

theorem buildRowsAux_cons (gm : List (String × List Nat)) (expanded : List String)
    (idx : Nat) (job : Job) (rest : List (Nat × Job)) (hA : List String) (d : List Nat) :
    buildRowsAux gm expanded ((idx, job) :: rest) hA d =
      if idx ∈ d then buildRowsAux gm expanded rest hA d
      else if (mapGetD gm (compute_group_key job)).length ≤ 1 then
        VisibleRow.job idx :: buildRowsAux gm expanded rest hA (idx :: d)
      else if compute_group_key job ∈ expanded then
        (if compute_group_key job ∈ hA then []
         else [VisibleRow.group (compute_group_key job) idx])
          ++ (pushMembers (mapGetD gm (compute_group_key job)) d).1
          ++ buildRowsAux gm expanded rest
              (if compute_group_key job ∈ hA then hA else compute_group_key job :: hA)
              (pushMembers (mapGetD gm (compute_group_key job)) d).2
      else
        (if compute_group_key job ∈ hA then []
         else [VisibleRow.group (compute_group_key job) idx])
          ++ buildRowsAux gm expanded rest
              (if compute_group_key job ∈ hA then hA else compute_group_key job :: hA) d := by
  rfl

theorem buildRowsAux_eq (jobs : List Job) (expanded : List String) :
    ∀ (rest : List Job) (k : Nat), rest = jobs.drop k →
      ∀ (headerAdded : List String) (displayed : List Nat),
        (∀ key, key ∈ headerAdded ↔ InvHA jobs k key) →
        (∀ i, i ∈ displayed ↔ InvD jobs expanded k i) →
        buildRowsAux (buildGroupMap jobs) expanded (enumJobs k rest) headerAdded displayed
          = (enumJobs k rest).flatMap (fun p => rowsFor jobs expanded p.1) := by
  intro rest
  induction rest with
  | nil =>
      intro k _ headerAdded displayed _ _
      simp [enumJobs, buildRowsAux]
  | cons j rest' ih =>
      intro k hk headerAdded displayed hHA hD
      have hkn : k < jobs.length := by
        by_contra hcon
        have hnil : jobs.drop k = [] := List.drop_eq_nil_iff.mpr (by omega)
        rw [hnil] at hk
        exact absurd hk (by simp)
      have hget : jobs.getD k default = j := by
        have h0 : (jobs.drop k)[0]? = some j := by rw [← hk]; simp
        rw [List.getElem?_drop] at h0
        rw [List.getD_eq_getElem?_getD]
        simp only [Nat.add_zero] at h0
        rw [h0]
        rfl
      have hrest' : rest' = jobs.drop (k + 1) := by
        have hdd : (jobs.drop k).drop 1 = jobs.drop (k + 1) := by
          rw [List.drop_drop]
        rw [← hk] at hdd
        simpa using hdd
      have hkey : compute_group_key j = keyOf jobs k := by rw [keyOf, hget]
      have hkmem : k ∈ bucket jobs (keyOf jobs k) := self_mem_bucket jobs hkn
      rw [show enumJobs k (j :: rest') = (k, j) :: enumJobs (k + 1) rest' from rfl,
        List.flatMap_cons, buildRowsAux_cons, hkey, bucket_def]
      by_cases hdisp : k ∈ displayed
      · -- job k was already displayed: skip it, and rowsFor k = []
        rw [if_pos hdisp]
        obtain ⟨-, hcase⟩ := (hD k).mp hdisp
        rcases hcase with ⟨hle, hlt⟩ | ⟨h2, hexp, h0, hh, hlt⟩
        · omega
        · have hneq : ∀ key', (bucket jobs key').head? ≠ some k := by
            intro key' hcon
            have he := key_of_head hcon
            rw [← he, hh] at hcon
            have := Option.some.inj hcon
            omega
          have hrows : rowsFor jobs expanded k = [] := by
            simp only [rowsFor]
            rw [if_neg (by omega), if_neg (by rw [hh]; intro hcon; have := Option.some.inj hcon; omega)]
          rw [hrows, List.nil_append]
          exact ih (k + 1) hrest' headerAdded displayed
            (fun key' => (hHA key').trans
              ⟨InvHA_mono, InvHA_down (fun _ => hneq key')⟩ )
            (fun i => (hD i).trans
              ⟨InvD_mono, InvD_down
                (by rintro ⟨rfl, hle⟩; omega)
                (fun _ => hneq _)⟩ )
      · rw [if_neg hdisp]
        by_cases hlen : (bucket jobs (keyOf jobs k)).length ≤ 1
        · -- singleton group: emit the job row
          rw [if_pos hlen]
          have hrows : rowsFor jobs expanded k = [VisibleRow.job k] := by
            simp only [rowsFor]
            rw [if_pos hlen]
          rw [hrows, List.singleton_append]
          have hneq : ∀ key', 2 ≤ (bucket jobs key').length →
              (bucket jobs key').head? ≠ some k := by
            intro key' h2 hcon
            have he := key_of_head hcon
            rw [he] at hlen
            omega
          refine congrArg (List.cons (VisibleRow.job k)) ?_
          refine ih (k + 1) hrest' headerAdded (k :: displayed)
            (fun key' => (hHA key').trans ⟨InvHA_mono, InvHA_down (hneq key')⟩) ?_
          intro i
          simp only [List.mem_cons]
          constructor
          · rintro (rfl | hi)
            · exact ⟨hkn, Or.inl ⟨hlen, by omega⟩⟩
            · exact InvD_mono ((hD i).mp hi)
          · intro hI
            by_cases hik : i = k
            · exact Or.inl hik
            · refine Or.inr ((hD i).mpr (InvD_down ?_ ?_ hI))
              · rintro ⟨rfl, -⟩; exact hik rfl
              · intro hme hcon
                have he := key_of_head hcon
                rw [← he] at hme
                have := hme.1
                omega
        · -- multi-member group
          rw [if_neg hlen]
          have h2 : 2 ≤ (bucket jobs (keyOf jobs k)).length := by omega
          by_cases hin : keyOf jobs k ∈ headerAdded
          · -- header already emitted before k: the first member is < k
            obtain ⟨-, h0, hh0, hlt0⟩ := (hHA _).mp hin
            have hexp : keyOf jobs k ∉ expanded := by
              intro hexp
              exact hdisp ((hD k).mpr ⟨hkn, Or.inr ⟨h2, hexp, h0, hh0, hlt0⟩⟩)
            rw [if_neg hexp]
            simp only [if_pos hin]
            rw [List.nil_append]
            have hneq : ∀ key', (bucket jobs key').head? ≠ some k := by
              intro key' hcon
              have he := key_of_head hcon
              rw [← he, hh0] at hcon
              have := Option.some.inj hcon
              omega
            have hrows : rowsFor jobs expanded k = [] := by
              simp only [rowsFor]
              rw [if_neg hlen, if_neg (hneq _)]
            rw [hrows, List.nil_append]
            exact ih (k + 1) hrest' headerAdded displayed
              (fun key' => (hHA key').trans ⟨InvHA_mono, InvHA_down (fun _ => hneq key')⟩)
              (fun i => (hD i).trans
                ⟨InvD_mono, InvD_down
                  (by rintro ⟨rfl, hle⟩; omega)
                  (fun _ => hneq _)⟩)
          · -- k is the first member of its group: the header is emitted here
            have hbne : bucket jobs (keyOf jobs k) ≠ [] := List.ne_nil_of_mem hkmem
            have hh0 : (bucket jobs (keyOf jobs k)).head? = some k := by
              rw [List.head?_eq_head hbne]
              by_contra hcon
              have hhd : (bucket jobs (keyOf jobs k)).head hbne ≠ k := by
                intro he
                rw [he] at hcon
                exact hcon rfl
              have hmemh : (bucket jobs (keyOf jobs k)).head hbne ∈
                  bucket jobs (keyOf jobs k) := List.head_mem hbne
              have hlt : (bucket jobs (keyOf jobs k)).head hbne < k := by
                have := bucket_head_lt jobs (keyOf jobs k)
                  (List.head?_eq_head hbne) hkmem (fun he => hhd he.symm)
                exact this
              exact hin ((hHA _).mpr ⟨h2, _, List.head?_eq_head hbne, hlt⟩)
            have hHA' : ∀ key', key' ∈ (keyOf jobs k :: headerAdded) ↔
                InvHA jobs (k + 1) key' := by
              intro key'
              simp only [List.mem_cons]
              constructor
              · rintro (rfl | hmem)
                · exact ⟨h2, k, hh0, by omega⟩
                · exact InvHA_mono ((hHA key').mp hmem)
              · intro hI
                by_cases hkk : key' = keyOf jobs k
                · exact Or.inl hkk
                · refine Or.inr ((hHA key').mpr (InvHA_down ?_ hI))
                  intro _ hcon
                  exact hkk (key_of_head hcon).symm
            by_cases hexp : keyOf jobs k ∈ expanded
            · -- expanded: header plus all member rows
              rw [if_pos hexp]
              simp only [if_neg hin]
              have hfresh : ∀ m ∈ bucket jobs (keyOf jobs k), m ∉ displayed := by
                intro m hm hmd
                obtain ⟨-, hcase⟩ := (hD m).mp hmd
                have hkeym : keyOf jobs m = keyOf jobs k := bucket_key_of_mem _ _ hm
                rw [hkeym] at hcase
                rcases hcase with ⟨hle, -⟩ | ⟨-, -, h0, hh, hlt⟩
                · omega
                · rw [hh0] at hh
                  have := Option.some.inj hh
                  omega
              obtain ⟨hp1, hp2⟩ := pushMembers_spec _ displayed
                (bucket_nodup jobs (keyOf jobs k)) hfresh
              have hrows : rowsFor jobs expanded k =
                  VisibleRow.group (keyOf jobs k) k ::
                    (bucket jobs (keyOf jobs k)).map VisibleRow.job := by
                simp only [rowsFor]
                rw [if_neg hlen, if_pos hh0, if_pos hexp]
              have hD' : ∀ i, i ∈ (pushMembers (bucket jobs (keyOf jobs k)) displayed).2 ↔
                  InvD jobs expanded (k + 1) i := by
                intro i
                rw [hp2 i]
                constructor
                · rintro (hib | hid)
                  · have hki : keyOf jobs i = keyOf jobs k := bucket_key_of_mem _ _ hib
                    refine ⟨bucket_lt_length_of_mem _ _ hib, Or.inr ?_⟩
                    rw [hki]
                    exact ⟨h2, hexp, k, hh0, by omega⟩
                  · exact InvD_mono ((hD i).mp hid)
                · intro hI
                  by_cases hib : i ∈ bucket jobs (keyOf jobs k)
                  · exact Or.inl hib
                  · refine Or.inr ((hD i).mpr (InvD_down ?_ ?_ hI))
                    · rintro ⟨rfl, -⟩; exact hib hkmem
                    · intro _ hcon
                      have he : keyOf jobs i = keyOf jobs k := (key_of_head hcon).symm
                      exact hib ((mem_bucket jobs (keyOf jobs k) i).mpr ⟨hI.1, he⟩)
              rw [hp1, hrows,
                ih (k + 1) hrest' (keyOf jobs k :: headerAdded)
                  (pushMembers (bucket jobs (keyOf jobs k)) displayed).2 hHA' hD']
              simp
            · -- collapsed: header only
              rw [if_neg hexp]
              simp only [if_neg hin]
              have hrows : rowsFor jobs expanded k =
                  [VisibleRow.group (keyOf jobs k) k] := by
                simp only [rowsFor]
                rw [if_neg hlen, if_pos hh0, if_neg hexp]
              have hD' : ∀ i, i ∈ displayed ↔ InvD jobs expanded (k + 1) i := by
                intro i
                refine (hD i).trans ⟨InvD_mono, InvD_down ?_ ?_⟩
                · rintro ⟨rfl, hle⟩; omega
                · intro hme hcon
                  have he : keyOf jobs i = keyOf jobs k := (key_of_head hcon).symm
                  rw [he] at hme
                  exact hexp hme.2
              rw [hrows,
                ih (k + 1) hrest' (keyOf jobs k :: headerAdded) displayed hHA' hD']

theorem flatMapCongr {α β : Type} {l : List α} {f g : α → List β}
    (h : ∀ a ∈ l, f a = g a) : l.flatMap f = l.flatMap g := by
  induction l with
  | nil => rfl
  | cons x xs ih =>
      rw [List.flatMap_cons, List.flatMap_cons, h x (by simp),
        ih (fun a ha => h a (by simp [ha]))]

theorem enumJobs_flatMap_fst {β : Type} (jobs : List Job) (f : Nat → List β) :
    ∀ k, (enumJobs k jobs).flatMap (fun p => f p.1)
      = (List.range jobs.length).flatMap (fun i => f (k + i)) := by
  induction jobs with
  | nil => intro k; simp [enumJobs]
  | cons j js ih =>
      intro k
      rw [show enumJobs k (j :: js) = (k, j) :: enumJobs (k + 1) js from rfl,
        List.flatMap_cons, List.length_cons, List.range_succ_eq_map,
        List.flatMap_cons, List.flatMap_map]
      congr 1
      rw [ih (k + 1)]
      exact flatMapCongr (fun a _ => by congr 1; omega)

theorem buildVisibleRows_eq (jobs : List Job) (expanded : List String) :
    buildVisibleRows jobs (buildGroupMap jobs) expanded
      = (List.range jobs.length).flatMap (rowsFor jobs expanded) := by
  have h1 := buildRowsAux_eq jobs expanded jobs 0 (by simp) [] []
    (by
      intro key
      constructor
      · intro h; exact absurd h (List.not_mem_nil key)
      · rintro ⟨-, h, -, hlt⟩; omega)
    (by
      intro i
      constructor
      · intro h; exact absurd h (List.not_mem_nil i)
      · rintro ⟨-, ⟨-, hlt⟩ | ⟨-, -, h, -, hlt⟩⟩ <;> omega)
  rw [buildVisibleRows, h1, enumJobs_flatMap_fst jobs _ 0]
  exact flatMapCongr (fun a _ => by rw [Nat.zero_add])

theorem rebuild_visible_rows (st : JobsList) :
    (rebuild_groups_and_rows st).visible_rows
      = (List.range st.jobs.length).flatMap (rowsFor st.jobs st.expanded_groups) :=
  buildVisibleRows_eq st.jobs st.expanded_groups

theorem filterMap_jobIndex_map_job (b : List Nat) :
    (b.map VisibleRow.job).filterMap jobIndex? = b := by
  rw [List.filterMap_map]
  exact List.filterMap_some b

theorem sum_map_range_single (n t c : Nat) :
    ((List.range n).map (fun i => if i = t then c else 0)).sum = if t < n then c else 0 := by
  induction n with
  | zero => simp
  | succ n ih =>
      rw [List.range_succ, List.map_append, List.sum_append, ih]
      simp only [List.map_cons, List.map_nil, List.sum_cons, List.sum_nil]
      split_ifs <;> omega

theorem count_range' (n t : Nat) : (List.range n).count t = if t < n then 1 else 0 := by
  by_cases h : t < n
  · rw [if_pos h]
    exact List.count_eq_one_of_mem (List.nodup_range n) (List.mem_range.mpr h)
  · rw [if_neg h]
    exact List.count_eq_zero.mpr (fun hc => h (List.mem_range.mp hc))

theorem count_rowsFor (jobs : List Job) (expanded : List String)
    (hfull : ∀ key, 2 ≤ (bucket jobs key).length → key ∈ expanded)
    {a : Nat} (han : a < jobs.length) {h0 : Nat}
    (hh0 : (bucket jobs (keyOf jobs a)).head? = some h0) :
    ∀ i, ((rowsFor jobs expanded i).filterMap jobIndex?).count a
        = if i = h0 then 1 else 0 := by
  intro i
  have hamem : a ∈ bucket jobs (keyOf jobs a) := self_mem_bucket jobs han
  have hh0mem : h0 ∈ bucket jobs (keyOf jobs a) :=
    List.mem_of_mem_head? (by rw [hh0]; rfl)
  have hh0key : keyOf jobs h0 = keyOf jobs a := bucket_key_of_mem _ _ hh0mem
  by_cases hlen : (bucket jobs (keyOf jobs i)).length ≤ 1
  · have hrows : rowsFor jobs expanded i = [VisibleRow.job i] := by
      simp only [rowsFor]; rw [if_pos hlen]
    rw [hrows]
    simp only [List.filterMap, jobIndex?]
    by_cases hia : i = a
    · subst hia
      have hone : bucket jobs (keyOf jobs i) = [i] := by
        cases hb : bucket jobs (keyOf jobs i) with
        | nil => rw [hb] at hamem; exact absurd hamem (List.not_mem_nil i)
        | cons x t =>
            rw [hb] at hlen hamem
            simp only [List.length_cons] at hlen
            have ht : t = [] := List.length_eq_zero.mp (by omega)
            subst ht
            simp only [List.mem_singleton] at hamem
            rw [hamem]
      have : h0 = i := by
        rw [hone] at hh0
        exact (Option.some.inj hh0).symm
      rw [if_pos this.symm]
      simp
    · have hih0 : i ≠ h0 := by
        intro he
        subst he
        rw [hh0key] at hlen
        have hba : bucket jobs (keyOf jobs a) = [a] := by
          cases hb : bucket jobs (keyOf jobs a) with
          | nil => rw [hb] at hamem; exact absurd hamem (List.not_mem_nil a)
          | cons x t =>
              rw [hb] at hlen hamem
              simp only [List.length_cons] at hlen
              have ht : t = [] := List.length_eq_zero.mp (by omega)
              subst ht
              simp only [List.mem_singleton] at hamem
              rw [hamem]
        rw [hba] at hh0
        exact hia (Option.some.inj hh0).symm
      rw [if_neg hih0]
      simp [List.count_singleton', hia]
  · have h2 : 2 ≤ (bucket jobs (keyOf jobs i)).length := by omega
    have hexp : keyOf jobs i ∈ expanded := hfull _ h2
    by_cases hh : (bucket jobs (keyOf jobs i)).head? = some i
    · have hrows : rowsFor jobs expanded i =
          VisibleRow.group (keyOf jobs i) i ::
            (bucket jobs (keyOf jobs i)).map VisibleRow.job := by
        simp only [rowsFor]; rw [if_neg hlen, if_pos hh, if_pos hexp]
      rw [hrows]
      have hfm : ((VisibleRow.group (keyOf jobs i) i ::
          (bucket jobs (keyOf jobs i)).map VisibleRow.job).filterMap jobIndex?)
            = bucket jobs (keyOf jobs i) := by
        rw [List.filterMap_cons]
        simp only [jobIndex?]
        exact filterMap_jobIndex_map_job _
      rw [hfm]
      by_cases hki : keyOf jobs i = keyOf jobs a
      · have hih0 : i = h0 := by
          rw [hki] at hh
          rw [hh] at hh0
          exact Option.some.inj hh0
        rw [if_pos hih0, hki]
        exact List.count_eq_one_of_mem (bucket_nodup jobs (keyOf jobs a)) hamem
      · have hih0 : i ≠ h0 := by
          intro he
          subst he
          rw [hh0key] at hki
          exact hki rfl
        rw [if_neg hih0]
        rw [List.count_eq_zero]
        intro hc
        exact hki (bucket_key_of_mem _ _ hc ▸ (bucket_key_of_mem _ _ hc).symm ▸
          ((bucket_key_of_mem _ _ hc).symm.trans (bucket_key_of_mem _ _ hc)) ▸ rfl) |>.elim
    · have hrows : rowsFor jobs expanded i = [] := by
        simp only [rowsFor]; rw [if_neg hlen, if_neg hh]
      have hih0 : i ≠ h0 := by
        intro he
        subst he
        rw [hh0key] at hh
        exact hh hh0
      rw [hrows, if_neg hih0]
      rfl

theorem mem_jobIndexes_rowsFor {jobs : List Job} {expanded : List String} {i x : Nat}
    (hin : i < jobs.length)
    (hx : x ∈ (rowsFor jobs expanded i).filterMap jobIndex?) : x < jobs.length := by
  rw [List.mem_filterMap] at hx
  obtain ⟨r, hr, hjr⟩ := hx
  simp only [rowsFor] at hr
  by_cases hlen : (bucket jobs (keyOf jobs i)).length ≤ 1
  · rw [if_pos hlen] at hr
    simp only [List.mem_singleton] at hr
    subst hr
    simp only [jobIndex?] at hjr
    exact (Option.some.inj hjr) ▸ hin
  · rw [if_neg hlen] at hr
    by_cases hh : (bucket jobs (keyOf jobs i)).head? = some i
    · rw [if_pos hh] at hr
      by_cases he : keyOf jobs i ∈ expanded
      · rw [if_pos he] at hr
        rcases List.mem_cons.mp hr with rfl | hr
        · simp [jobIndex?] at hjr
        · obtain ⟨m, hm, rfl⟩ := List.mem_map.mp hr
          simp only [jobIndex?] at hjr
          exact (Option.some.inj hjr) ▸ bucket_lt_length_of_mem _ _ hm
      · rw [if_neg he] at hr
        simp only [List.mem_singleton] at hr
        subst hr
        simp [jobIndex?] at hjr
    · rw [if_neg hh] at hr
      exact absurd hr (List.not_mem_nil r)

theorem flatMap_single_spike {β : Type} (h0 : Nat) (v : List β) :
    ∀ l : List Nat, l.Nodup → h0 ∈ l →
      (l.flatMap fun a => if a = h0 then v else []) = v := by
  intro l
  induction l with
  | nil => intro _ hmem; exact absurd hmem (List.not_mem_nil h0)
  | cons x t ih =>
      intro hnd hmem
      rw [List.flatMap_cons]
      by_cases hx : x = h0
      · subst hx
        rw [if_pos rfl]
        have hxt : x ∉ t := (List.nodup_cons.mp hnd).1
        have ht : (t.flatMap fun a => if a = x then v else []) = [] := by
          rw [List.flatMap_eq_nil_iff]
          intro a ha
          rw [if_neg (fun (he : a = x) => hxt (he ▸ ha))]
        rw [ht, List.append_nil]
      · rw [if_neg hx, List.nil_append]
        refine ih (List.nodup_cons.mp hnd).2 ?_
        rcases List.mem_cons.mp hmem with h | h
        · exact absurd h.symm hx
        · exact h

theorem jobRows_perm_range (jobs : List Job) (expanded : List String)
    (hfull : ∀ key, 2 ≤ (bucket jobs key).length → key ∈ expanded) :
    (((List.range jobs.length).flatMap (rowsFor jobs expanded)).filterMap jobIndex?).Perm
      (List.range jobs.length) := by
  rw [List.perm_iff_count]
  intro a
  rw [List.filterMap_flatMap, List.count_flatMap, count_range']
  simp only [Function.comp_def]
  by_cases han : a < jobs.length
  · have hamem : a ∈ bucket jobs (keyOf jobs a) := self_mem_bucket jobs han
    have hbne : bucket jobs (keyOf jobs a) ≠ [] := List.ne_nil_of_mem hamem
    have hh0 : (bucket jobs (keyOf jobs a)).head? =
        some ((bucket jobs (keyOf jobs a)).head hbne) := List.head?_eq_head hbne
    have hh0mem : (bucket jobs (keyOf jobs a)).head hbne ∈ bucket jobs (keyOf jobs a) :=
      List.head_mem hbne
    have hh0n : (bucket jobs (keyOf jobs a)).head hbne < jobs.length :=
      bucket_lt_length_of_mem _ _ hh0mem
    rw [List.map_congr_left
      (fun i _ => count_rowsFor jobs expanded hfull han hh0 i)]
    rw [sum_map_range_single, if_pos hh0n, if_pos han]
  · rw [if_neg han]
    apply List.sum_eq_zero
    intro x hx
    simp only [List.mem_map] at hx
    obtain ⟨i, hi, rfl⟩ := hx
    rw [List.count_eq_zero]
    intro hc
    exact han (mem_jobIndexes_rowsFor (List.mem_range.mp hi) hc)

theorem group_block_infix (jobs : List Job) (expanded : List String) (key : String)
    {h0 : Nat} (h2 : 2 ≤ (bucket jobs key).length) (hexp : key ∈ expanded)
    (hh0 : (bucket jobs key).head? = some h0) :
    (VisibleRow.group key h0 :: (bucket jobs key).map VisibleRow.job) <:+:
      (List.range jobs.length).flatMap (rowsFor jobs expanded) := by
  have hh0mem : h0 ∈ bucket jobs key := List.mem_of_mem_head? (by rw [hh0]; rfl)
  have hh0n : h0 < jobs.length := bucket_lt_length_of_mem _ _ hh0mem
  have hh0key : keyOf jobs h0 = key := bucket_key_of_mem _ _ hh0mem
  have hrows : rowsFor jobs expanded h0 =
      VisibleRow.group key h0 :: (bucket jobs key).map VisibleRow.job := by
    simp only [rowsFor, hh0key]
    rw [if_neg (by omega), if_pos hh0, if_pos hexp]
  obtain ⟨s, t, hst⟩ := List.append_of_mem (List.mem_range.mpr hh0n)
  rw [hst, List.flatMap_append, List.flatMap_cons]
  exact ⟨s.flatMap (rowsFor jobs expanded), t.flatMap (rowsFor jobs expanded), by
    rw [hrows, List.append_assoc]⟩

theorem collapsed_group_single_row (jobs : List Job) (expanded : List String)
    (key : String) {h0 : Nat} (h2 : 2 ≤ (bucket jobs key).length)
    (hexp : key ∉ expanded) (hh0 : (bucket jobs key).head? = some h0) :
    ((List.range jobs.length).flatMap (rowsFor jobs expanded)).filter
        (fun r => rowKey jobs r = key)
      = [VisibleRow.group key h0] := by
  have hh0mem : h0 ∈ bucket jobs key := List.mem_of_mem_head? (by rw [hh0]; rfl)
  have hh0n : h0 < jobs.length := bucket_lt_length_of_mem _ _ hh0mem
  have hh0key : keyOf jobs h0 = key := bucket_key_of_mem _ _ hh0mem
  rw [List.filter_flatMap]
  have hpoint : ∀ i ∈ List.range jobs.length,
      (rowsFor jobs expanded i).filter (fun r => rowKey jobs r = key)
        = if i = h0 then [VisibleRow.group key h0] else [] := by
    intro i hi
    have hin : i < jobs.length := List.mem_range.mp hi
    by_cases hki : keyOf jobs i = key
    · by_cases hih0 : i = h0
      · subst hih0
        rw [if_pos rfl]
        have hrows : rowsFor jobs expanded i = [VisibleRow.group key i] := by
          simp only [rowsFor, hki]
          rw [if_neg (by omega), if_pos hh0, if_neg hexp]
        rw [hrows]
        simp [rowKey]
      · rw [if_neg hih0]
        have hrows : rowsFor jobs expanded i = [] := by
          simp only [rowsFor, hki]
          rw [if_neg (by omega), if_neg (by
            rw [hh0]
            intro hcon
            exact hih0 (Option.some.inj hcon).symm)]
        rw [hrows]
        rfl
    · have hih0 : i ≠ h0 := fun he => hki (he ▸ hh0key)
      rw [if_neg hih0]
      simp only [rowsFor]
      by_cases hlen : (bucket jobs (keyOf jobs i)).length ≤ 1
      · rw [if_pos hlen]
        simp [rowKey, hki]
      · rw [if_neg hlen]
        by_cases hh : (bucket jobs (keyOf jobs i)).head? = some i
        · rw [if_pos hh]
          by_cases he : keyOf jobs i ∈ expanded
          · rw [if_pos he]
            rw [List.filter_cons]
            simp only [rowKey, decide_eq_true_eq]
            rw [if_neg (by simp [hki])]
            rw [List.filter_eq_nil_iff.mpr ?_]
            intro r hr
            simp only [List.mem_map] at hr
            obtain ⟨m, hm, rfl⟩ := hr
            simp only [rowKey, decide_eq_true_eq]
            intro hcon
            exact hki (((bucket_key_of_mem _ _ hm).symm.trans hcon) ▸ rfl)
          · rw [if_neg he]
            simp [rowKey, hki]
        · rw [if_neg hh]
          rfl
  rw [flatMapCongr hpoint]
  exact flatMap_single_spike h0 [VisibleRow.group key h0] (List.range jobs.length)
    (List.nodup_range jobs.length) (List.mem_range.mpr hh0n)

theorem update_jobs_fields (st : JobsList) (jobs : List Job) :
    (update_jobs st jobs).jobs = jobs
    ∧ (update_jobs st jobs).selected_jobs = st.selected_jobs
    ∧ (update_jobs st jobs).expanded_groups = st.expanded_groups
    ∧ (update_jobs st jobs).sort_column = st.sort_column
    ∧ (update_jobs st jobs).sort_ascending = st.sort_ascending
    ∧ (update_jobs st jobs).group_map = buildGroupMap jobs
    ∧ (update_jobs st jobs).visible_rows
        = buildVisibleRows jobs (buildGroupMap jobs) st.expanded_groups := by
  unfold update_jobs rebuild_groups_and_rows
  cases hst : st.state with
  | none => by_cases h : jobs.isEmpty <;> simp [hst, h]
  | some c =>
      by_cases h : (buildVisibleRows jobs (buildGroupMap jobs) st.expanded_groups).length ≤ c <;>
        simp [hst, h]

theorem update_jobs_state (st : JobsList) (jobs : List Job) :
    (update_jobs st jobs).state =
      (match st.state with
      | some c =>
          if (buildVisibleRows jobs (buildGroupMap jobs) st.expanded_groups).length ≤ c
          then some 0 else some c
      | none => if jobs.isEmpty then none else some 0) := by
  unfold update_jobs rebuild_groups_and_rows
  cases hst : st.state with
  | none => by_cases h : jobs.isEmpty <;> simp [hst, h]
  | some c =>
      by_cases h : (buildVisibleRows jobs (buildGroupMap jobs) st.expanded_groups).length ≤ c <;>
        simp [hst, h]

/-- Claim C1 (amended): `update_jobs` leaves the Selection Set exactly as it
was; indices that are out of range for the new snapshot are not dropped — they
persist, and only the read through `get_selected_jobs` filters out indices
that no longer resolve. -/
theorem claim_C1_amended (st : JobsList) (jobs : List Job) :
    (update_jobs st jobs).selected_jobs = st.selected_jobs
    ∧ ∀ id ∈ get_selected_jobs (update_jobs st jobs), ∃ j ∈ jobs, j.id = id := by
  obtain ⟨hj, hs, -⟩ := update_jobs_fields st jobs
  refine ⟨hs, ?_⟩
  intro id hid
  unfold get_selected_jobs at hid
  rw [List.mem_filterMap] at hid
  obtain ⟨i, -, hmap⟩ := hid
  rw [hj] at hmap
  cases hget : jobs.get? i with
  | none => rw [hget] at hmap; exact absurd hmap (by simp)
  | some j =>
      rw [hget] at hmap
      simp only [Option.map_some'] at hmap
      exact ⟨j, List.get?_mem hget, Option.some.inj hmap⟩

/-- Claim C1 counterexample: select job 0 of a one-job snapshot, then update
to an empty snapshot; the stale selection index 0 persists in the Selection
Set even though it is out of range for the new snapshot (it only disappears
from the `get_selected_jobs` read). -/
theorem claim_C1_counterexample :
    0 ∈ (update_jobs (toggle_select (update_jobs JobsList.new [⟨"a", "a"⟩])) []).selected_jobs
    ∧ (update_jobs (toggle_select (update_jobs JobsList.new [⟨"a", "a"⟩])) []).jobs.length = 0
    ∧ get_selected_jobs
        (update_jobs (toggle_select (update_jobs JobsList.new [⟨"a", "a"⟩])) []) = [] := by
  decide

/-- Claim C10: `update_jobs` leaves the Expansion Set exactly unchanged (it is
rebuilt into the rows of the new snapshot unchanged, so a key that reappears
silently re-applies its old expansion state), and no operation other than
`toggle_group_expand` ever adds or removes expansion keys. -/
theorem claim_C10 (st : JobsList) (jobs : List Job) (columns : List JobColumn)
    (sort_columns : List SortColumn) :
    (update_jobs st jobs).expanded_groups = st.expanded_groups
    ∧ (update_jobs st jobs).visible_rows
        = buildVisibleRows jobs (buildGroupMap jobs) st.expanded_groups
    ∧ (toggle_select st).expanded_groups = st.expanded_groups
    ∧ (select_all st).expanded_groups = st.expanded_groups
    ∧ (clear_selection st).expanded_groups = st.expanded_groups
    ∧ (update_sort st columns sort_columns).expanded_groups = st.expanded_groups
    ∧ (next st).1.expanded_groups = st.expanded_groups
    ∧ (previous st).1.expanded_groups = st.expanded_groups := by
  obtain ⟨-, -, he, -, -, -, hv⟩ := update_jobs_fields st jobs
  refine ⟨he, hv, ?_, rfl, rfl, ?_, ?_, ?_⟩
  · unfold toggle_select
    repeat' split
    all_goals rfl
  · unfold update_sort
    cases sort_columns.head? with
    | none => rfl
    | some fs => rfl
  · unfold next
    by_cases h : st.visible_rows.isEmpty <;> simp [h]
  · unfold previous
    by_cases h : st.visible_rows.isEmpty <;> simp [h]

theorem rows_ne_nil (jobs : List Job) (expanded : List String) (h : jobs ≠ []) :
    (List.range jobs.length).flatMap (rowsFor jobs expanded) ≠ [] := by
  have hn : 0 < jobs.length := List.length_pos.mpr h
  have h0mem : 0 ∈ bucket jobs (keyOf jobs 0) := self_mem_bucket jobs hn
  have hbne : bucket jobs (keyOf jobs 0) ≠ [] := List.ne_nil_of_mem h0mem
  have hh := List.head?_eq_head hbne
  have hhead : (bucket jobs (keyOf jobs 0)).head hbne = 0 := by
    by_contra hne
    have := bucket_head_lt jobs (keyOf jobs 0) hh h0mem (fun he => hne he.symm)
    omega
  rw [hhead] at hh
  intro hcon
  rw [List.flatMap_eq_nil_iff] at hcon
  have h0r := hcon 0 (List.mem_range.mpr hn)
  simp only [rowsFor] at h0r
  by_cases hlen : (bucket jobs (keyOf jobs 0)).length ≤ 1
  · rw [if_pos hlen] at h0r
    exact absurd h0r (by simp)
  · rw [if_neg hlen, if_pos hh] at h0r
    by_cases he : keyOf jobs 0 ∈ expanded
    · rw [if_pos he] at h0r
      exact absurd h0r (by simp)
    · rw [if_neg he] at h0r
      exact absurd h0r (by simp)

/-- Claim C5 (amended): after `update_jobs`, a cursor that was `≥` the new row
count is reset to row 0 even when the new row sequence is empty — so the
cursor can be set (at 0) on an empty sequence; an in-range cursor is kept; if
no cursor was set it becomes 0 exactly when the new snapshot is non-empty
(and the row sequence is then non-empty too). -/
theorem claim_C5_amended (st : JobsList) (jobs : List Job) :
    (∀ c, st.state = some c → (update_jobs st jobs).visible_rows.length ≤ c →
        (update_jobs st jobs).state = some 0)
    ∧ (∀ c, st.state = some c → c < (update_jobs st jobs).visible_rows.length →
        (update_jobs st jobs).state = some c)
    ∧ (st.state = none → jobs ≠ [] → (update_jobs st jobs).state = some 0)
    ∧ (st.state = none → jobs = [] → (update_jobs st jobs).state = none)
    ∧ (jobs ≠ [] → (update_jobs st jobs).visible_rows ≠ []) := by
  obtain ⟨-, -, -, -, -, -, hv⟩ := update_jobs_fields st jobs
  have hstate := update_jobs_state st jobs
  refine ⟨?_, ?_, ?_, ?_, ?_⟩
  · intro c hc hle
    rw [hv] at hle
    rw [hstate, hc]
    simp only []
    rw [if_pos hle]
  · intro c hc hlt
    rw [hv] at hlt
    rw [hstate, hc]
    simp only []
    rw [if_neg (by omega)]
  · intro hc hne
    rw [hstate, hc]
    simp only []
    rw [if_neg (by simp [List.isEmpty_iff, hne])]
  · intro hc hnil
    rw [hstate, hc]
    simp only []
    rw [if_pos (by simp [List.isEmpty_iff, hnil])]
  · intro hne
    rw [hv, buildVisibleRows_eq]
    exact rows_ne_nil jobs st.expanded_groups hne

/-- Claim C5 counterexample: update a state whose cursor is set to an empty
snapshot — the Visible Row sequence is empty, yet the cursor is reset to
`some 0` instead of being unset (the code's reset branch never checks that
rows exist). -/
theorem claim_C5_counterexample :
    (update_jobs (update_jobs JobsList.new [⟨"a", "a"⟩]) []).state = some 0
    ∧ (update_jobs (update_jobs JobsList.new [⟨"a", "a"⟩]) []).visible_rows = [] := by
  decide

/-- Claim C2: for every job snapshot and expansion state, the rebuilt Visible
Row sequence satisfies: (i) when every multi-member group key is in the
Expansion Set, the JobRow entries cover every job index exactly once; (ii)
each expanded multi-member group's member rows appear contiguously
immediately after its header; (iii) each collapsed multi-member group
contributes exactly one row — its header — regardless of member count. -/
theorem claim_C2 (st : JobsList) :
    ((∀ key, 2 ≤ (bucket st.jobs key).length → key ∈ st.expanded_groups) →
      ((rebuild_groups_and_rows st).visible_rows.filterMap jobIndex?).Perm
        (List.range st.jobs.length))
    ∧ (∀ key h0, 2 ≤ (bucket st.jobs key).length → key ∈ st.expanded_groups →
        (bucket st.jobs key).head? = some h0 →
        (VisibleRow.group key h0 :: (bucket st.jobs key).map VisibleRow.job) <:+:
          (rebuild_groups_and_rows st).visible_rows)
    ∧ (∀ key h0, 2 ≤ (bucket st.jobs key).length → key ∉ st.expanded_groups →
        (bucket st.jobs key).head? = some h0 →
        (rebuild_groups_and_rows st).visible_rows.filter
            (fun r => rowKey st.jobs r = key)
          = [VisibleRow.group key h0]) := by
  refine ⟨?_, ?_, ?_⟩
  · intro hfull
    rw [rebuild_visible_rows st]
    exact jobRows_perm_range st.jobs st.expanded_groups hfull
  · intro key h0 h2 hexp hh0
    rw [rebuild_visible_rows st]
    exact group_block_infix st.jobs st.expanded_groups key h2 hexp hh0
  · intro key h0 h2 hexp hh0
    rw [rebuild_visible_rows st]
    exact collapsed_group_single_row st.jobs st.expanded_groups key h2 hexp hh0

/-- Witness for claim C2: in the §8.6 scenario the expanded group `"200"`
(bucket `[1, 2]`, header representative 1) forms a contiguous block right
after its header inside the rebuilt rows. -/
theorem claim_C2_witness :
    (2 ≤ (bucket scenarioState.jobs ("200")).length
      ∧ "200" ∈ scenarioState.expanded_groups
      ∧ (bucket scenarioState.jobs ("200")).head? = some 1)
    ∧ (VisibleRow.group ("200") 1 ::
        (bucket scenarioState.jobs ("200")).map VisibleRow.job) <:+:
        (rebuild_groups_and_rows scenarioState).visible_rows :=
  ⟨⟨by decide, by decide, by decide⟩,
    (claim_C2 scenarioState).2.1 ("200") 1 (by decide) (by decide) (by decide)⟩

theorem setState_self (st : JobsList) {x : Option Nat} (h : st.state = x) :
    { st with state := x } = st := by
  cases st
  simp only at h
  rw [← h]

theorem beqDecideNat (a b : Nat) : (a == b) = decide (a = b) := by
  by_cases h : a = b <;> simp [h]

/-- Claim C7: `next`/`previous` are no-ops reporting `false` on an empty row
sequence; with no cursor they select row 0 and report `true`; with an
in-range cursor they wrap at the ends and report `true` exactly when the
cursor index changed; in particular both report `false` when the sequence has
exactly one row and the cursor sits on it. -/
theorem claim_C7 (st : JobsList) :
    (st.visible_rows.length = 0 → next st = (st, false) ∧ previous st = (st, false))
    ∧ (0 < st.visible_rows.length → st.state = none →
        next st = ({ st with state := some 0 }, true)
        ∧ previous st = ({ st with state := some 0 }, true))
    ∧ (∀ i, st.state = some i → i < st.visible_rows.length →
        next st = ({ st with
            state := some (if i = st.visible_rows.length - 1 then 0 else i + 1) },
          decide (i ≠ if i = st.visible_rows.length - 1 then 0 else i + 1))
        ∧ previous st = ({ st with
            state := some (if i = 0 then st.visible_rows.length - 1 else i - 1) },
          decide (i ≠ if i = 0 then st.visible_rows.length - 1 else i - 1)))
    ∧ (st.visible_rows.length = 1 → st.state = some 0 →
        next st = (st, false) ∧ previous st = (st, false)) := by
  refine ⟨?_, ?_, ?_, ?_⟩
  · intro h0
    have he : st.visible_rows.isEmpty = true := by
      rw [List.isEmpty_iff]
      cases hv : st.visible_rows with
      | nil => rfl
      | cons a t => rw [hv] at h0; simp at h0
    exact ⟨by simp [next, he], by simp [previous, he]⟩
  · intro hpos hnone
    have he : st.visible_rows.isEmpty = false := by
      cases hv : st.visible_rows with
      | nil => rw [hv] at hpos; simp at hpos
      | cons a t => rfl
    exact ⟨by simp [next, he, hnone], by simp [previous, he, hnone]⟩
  · intro i hsome hlt
    have he : st.visible_rows.isEmpty = false := by
      cases hv : st.visible_rows with
      | nil => rw [hv] at hlt; simp at hlt
      | cons a t => rfl
    constructor
    · by_cases hend : i = st.visible_rows.length - 1
      · have hle : st.visible_rows.length - 1 ≤ i := by omega
        by_cases hi0 : i = 0 <;>
          simp [next, he, hsome, hend, hle, hi0, bne, beqDecideNat]
      · have hle : ¬ st.visible_rows.length - 1 ≤ i := by omega
        simp [next, he, hsome, hend, hle, bne, beqDecideNat]
    · by_cases hi0 : i = 0
      · by_cases hn1 : st.visible_rows.length - 1 = 0 <;>
          simp [previous, he, hsome, hi0, hn1, bne, eq_comm, beqDecideNat]
      · simp [previous, he, hsome, hi0, bne, beqDecideNat]
  · intro hone hzero
    have he : st.visible_rows.isEmpty = false := by
      cases hv : st.visible_rows with
      | nil => rw [hv] at hone; simp at hone
      | cons a t => rfl
    have h := setState_self st hzero
    exact ⟨by simp [next, he, hzero, hone, h], by simp [previous, he, hzero, hone, h]⟩

/-- Witness for claim C7: on a one-row snapshot with the cursor on row 0 both
`next` and `previous` wrap back to the same row and report unchanged. -/
theorem claim_C7_witness :
    ((update_jobs JobsList.new [⟨"a", "a"⟩]).visible_rows.length = 1
      ∧ (update_jobs JobsList.new [⟨"a", "a"⟩]).state = some 0)
    ∧ next (update_jobs JobsList.new [⟨"a", "a"⟩])
        = (update_jobs JobsList.new [⟨"a", "a"⟩], false)
    ∧ previous (update_jobs JobsList.new [⟨"a", "a"⟩])
        = (update_jobs JobsList.new [⟨"a", "a"⟩], false) :=
  ⟨⟨by decide, by decide⟩,
    ((claim_C7 (update_jobs JobsList.new [⟨"a", "a"⟩])).2.2.2 (by decide) (by decide)).1,
    ((claim_C7 (update_jobs JobsList.new [⟨"a", "a"⟩])).2.2.2 (by decide) (by decide)).2⟩

theorem position_spec {α : Type} [Inhabited α] (p : α → Bool) (l : List α) (i : Nat)
    (h : position p l = some i) :
    i < l.length ∧ p (l.getD i default) = true ∧ ∀ j < i, p (l.getD j default) = false := by
  induction l generalizing i with
  | nil => simp [position] at h
  | cons x xs ih =>
      simp only [position] at h
      by_cases hp : p x
      · rw [if_pos hp] at h
        have h0 : i = 0 := (Option.some.inj h).symm
        subst h0
        exact ⟨by simp, by simpa using hp, by omega⟩
      · rw [if_neg hp] at h
        cases hpos : position p xs with
        | none => rw [hpos] at h; simp at h
        | some i' =>
            rw [hpos] at h
            simp only [Option.map_some'] at h
            have h1 : i = i' + 1 := (Option.some.inj h).symm
            subst h1
            obtain ⟨ha, hb, hc⟩ := ih i' hpos
            refine ⟨by simp only [List.length_cons]; omega, by simpa using hb, ?_⟩
            intro j hj
            cases j with
            | zero => simpa using hp
            | succ j' =>
                rw [List.getD_cons_succ]
                exact hc j' (by omega)

theorem position_isSome_of_mem {α : Type} (p : α → Bool) (l : List α) (x : α)
    (hx : x ∈ l) (hp : p x = true) : ∃ i, position p l = some i := by
  cases hpos : position p l with
  | none =>
      rw [position_eq_none] at hpos
      rw [hpos x hx] at hp
      exact absurd hp (by simp)
  | some i => exact ⟨i, rfl⟩

/-- Claim C9: `update_sort` with a non-empty sort-spec list uses only the
first entry; it records the position of the first displayed column equal to
that entry's column kind (0 when none matches) and the entry's direction, and
it never reorders the snapshot or touches the rows. -/
theorem claim_C9 (st : JobsList) (columns : List JobColumn) (fs : SortColumn)
    (rest : List SortColumn) :
    update_sort st columns (fs :: rest) = update_sort st columns [fs]
    ∧ (update_sort st columns (fs :: rest)).jobs = st.jobs
    ∧ (update_sort st columns (fs :: rest)).visible_rows = st.visible_rows
    ∧ (update_sort st columns (fs :: rest)).selected_jobs = st.selected_jobs
    ∧ (update_sort st columns (fs :: rest)).sort_ascending
        = (match fs.order with
           | SortOrder.Ascending => true
           | SortOrder.Descending => false)
    ∧ (fs.column ∉ columns → (update_sort st columns (fs :: rest)).sort_column = 0)
    ∧ (fs.column ∈ columns →
        columns.getD (update_sort st columns (fs :: rest)).sort_column default = fs.column
        ∧ ∀ j < (update_sort st columns (fs :: rest)).sort_column,
            columns.getD j default ≠ fs.column) := by
  refine ⟨rfl, rfl, rfl, rfl, rfl, ?_, ?_⟩
  · intro hni
    have hnone : position (fun col => col = fs.column) columns = none := by
      rw [position_eq_none]
      intro x hx
      simp only [decide_eq_false_iff_not]
      exact fun he => hni (he ▸ hx)
    simp [update_sort, hnone]
  · intro hmem
    obtain ⟨i, hi⟩ := position_isSome_of_mem (fun col => col = fs.column) columns
      fs.column hmem (by simp)
    obtain ⟨ha, hb, hc⟩ := position_spec (fun col => col = fs.column) columns i hi
    have hcol : (update_sort st columns (fs :: rest)).sort_column = i := by
      simp [update_sort, hi]
    rw [hcol]
    refine ⟨by simpa using hb, ?_⟩
    intro j hj
    have := hc j hj
    simpa using this

/-- Witness for claim C9: binding the Name column descending against the
displayed columns Id and Name records position 1. -/
theorem claim_C9_witness :
    (JobColumn.Name ∈ [JobColumn.Id, JobColumn.Name])
    ∧ ([JobColumn.Id, JobColumn.Name].getD
          (update_sort JobsList.new [JobColumn.Id, JobColumn.Name]
            [⟨JobColumn.Name, SortOrder.Descending⟩]).sort_column default
        = JobColumn.Name
      ∧ ∀ j < (update_sort JobsList.new [JobColumn.Id, JobColumn.Name]
            [⟨JobColumn.Name, SortOrder.Descending⟩]).sort_column,
          [JobColumn.Id, JobColumn.Name].getD j default ≠ JobColumn.Name) :=
  ⟨by decide,
    (claim_C9 JobsList.new [JobColumn.Id, JobColumn.Name]
      ⟨JobColumn.Name, SortOrder.Descending⟩ []).2.2.2.2.2.2 (by decide)⟩

theorem containsDecide (l : List Nat) (a : Nat) : l.contains a = decide (a ∈ l) := by
  by_cases h : a ∈ l
  · rw [decide_eq_true h]; exact List.elem_iff.mpr h
  · rw [decide_eq_false h]
    cases he : l.contains a with
    | false => rfl
    | true => exact absurd (List.elem_iff.mp he) h

theorem toggle_select_group (st : JobsList) {v : Nat} {key : String} {rep : Nat}
    {indices : List Nat} (hc : st.state = some v)
    (hrow : st.visible_rows.get? v = some (VisibleRow.group key rep))
    (hbucket : mapGet? st.group_map key = some indices) :
    toggle_select st =
      if indices.all (fun i => st.selected_jobs.contains i) then
        { st with selected_jobs :=
            st.selected_jobs.filter (fun i => !indices.contains i) }
      else
        { st with selected_jobs :=
            (indices.foldl
              (fun acc idx => if acc.contains idx then acc else acc ++ [idx])
              st.selected_jobs) } := by
  unfold toggle_select
  rw [hc]
  simp only [hrow, hbucket]

theorem mem_foldl_push (ms : List Nat) : ∀ (init : List Nat) (j : Nat),
    j ∈ ms.foldl (fun acc idx => if acc.contains idx then acc else acc ++ [idx]) init ↔
      j ∈ init ∨ j ∈ ms := by
  induction ms with
  | nil => simp
  | cons m rest ih =>
      intro init j
      simp only [List.foldl_cons]
      by_cases h : init.contains m
      · rw [if_pos h, ih]
        have hm : m ∈ init := List.elem_iff.mp h
        simp only [List.mem_cons]
        constructor
        · rintro (hj | hj)
          · exact Or.inl hj
          · exact Or.inr (Or.inr hj)
        · rintro (hj | rfl | hj)
          · exact Or.inl hj
          · exact Or.inl hm
          · exact Or.inr hj
      · rw [if_neg h, ih]
        simp only [List.mem_append, List.mem_singleton, List.mem_cons]
        tauto

theorem all_contains_iff (indices sel : List Nat) :
    indices.all (fun i => sel.contains i) = true ↔ ∀ i ∈ indices, i ∈ sel := by
  simp [List.all_eq_true, containsDecide]

/-- Claim C4 (amended): with the cursor on a group header, toggling selection
twice returns the Selection Set to its prior state provided all of the
group's members, or none of them, were selected beforehand (with a partial
selection the second toggle also deselects the originally selected members);
in all cases one toggle makes every member selected if not all were selected
before, and every member unselected if all were. -/
theorem claim_C4_amended (st : JobsList) (v : Nat) (key : String) (rep : Nat)
    (indices : List Nat)
    (hc : st.state = some v)
    (hrow : st.visible_rows.get? v = some (VisibleRow.group key rep))
    (hbucket : mapGet? st.group_map key = some indices) :
    (((∀ i ∈ indices, i ∈ st.selected_jobs) ∨ (∀ i ∈ indices, i ∉ st.selected_jobs)) →
      ∀ j, j ∈ (toggle_select (toggle_select st)).selected_jobs ↔ j ∈ st.selected_jobs)
    ∧ ((¬ ∀ i ∈ indices, i ∈ st.selected_jobs) →
        ∀ i ∈ indices, i ∈ (toggle_select st).selected_jobs)
    ∧ ((∀ i ∈ indices, i ∈ st.selected_jobs) →
        ∀ i ∈ indices, i ∉ (toggle_select st).selected_jobs) := by
  have heq1 := toggle_select_group st hc hrow hbucket
  by_cases hall : indices.all (fun i => st.selected_jobs.contains i)
  · -- all members selected: the first toggle bulk-deselects
    rw [if_pos hall] at heq1
    have hsub := (all_contains_iff indices st.selected_jobs).mp hall
    have hst1 : ∀ j, j ∈ (toggle_select st).selected_jobs ↔
        j ∈ st.selected_jobs ∧ j ∉ indices := by
      intro j
      rw [heq1]
      simp [List.mem_filter, containsDecide]
    refine ⟨?_, ?_, ?_⟩
    · intro _ j
      have hc1 : (toggle_select st).state = some v := by rw [heq1]; exact hc
      have hrow1 : (toggle_select st).visible_rows.get? v
          = some (VisibleRow.group key rep) := by rw [heq1]; exact hrow
      have hbucket1 : mapGet? (toggle_select st).group_map key = some indices := by
        rw [heq1]; exact hbucket
      have heq2 := toggle_select_group (toggle_select st) hc1 hrow1 hbucket1
      by_cases hnil : indices = []
      · subst hnil
        rw [if_pos (by simp)] at heq2
        rw [heq2]
        simp only [List.mem_filter]
        rw [hst1 j]
        simp
      · obtain ⟨m, hm⟩ := List.exists_mem_of_ne_nil indices hnil
        have hall2 : indices.all
            (fun i => (toggle_select st).selected_jobs.contains i) = false := by
          rw [List.all_eq_false]
          refine ⟨m, hm, ?_⟩
          rw [containsDecide]
          simp only [Bool.not_eq_true, decide_eq_false_iff_not]
          rw [hst1 m]
          rintro ⟨-, h2⟩
          exact h2 hm
        rw [hall2] at heq2
        simp only [Bool.false_eq_true, if_false] at heq2
        rw [heq2]
        simp only []
        rw [mem_foldl_push, hst1 j]
        constructor
        · rintro (⟨h1, -⟩ | h1)
          · exact h1
          · exact hsub j h1
        · intro h1
          by_cases hji : j ∈ indices
          · exact Or.inr hji
          · exact Or.inl ⟨h1, hji⟩
    · intro hnall
      exact absurd hsub hnall
    · intro _ i hi
      rw [hst1 i]
      rintro ⟨-, h2⟩
      exact h2 hi
  · -- not all selected: the first toggle bulk-selects
    rw [if_neg hall] at heq1
    have hnall : ¬ ∀ i ∈ indices, i ∈ st.selected_jobs :=
      fun h => hall ((all_contains_iff indices st.selected_jobs).mpr h)
    have hst1 : ∀ j, j ∈ (toggle_select st).selected_jobs ↔
        j ∈ st.selected_jobs ∨ j ∈ indices := by
      intro j
      rw [heq1]
      exact mem_foldl_push indices st.selected_jobs j
    refine ⟨?_, ?_, ?_⟩
    · intro hpre j
      rcases hpre with hpre | hpre
      · exact absurd hpre hnall
      · have hc1 : (toggle_select st).state = some v := by rw [heq1]; exact hc
        have hrow1 : (toggle_select st).visible_rows.get? v
            = some (VisibleRow.group key rep) := by rw [heq1]; exact hrow
        have hbucket1 : mapGet? (toggle_select st).group_map key = some indices := by
          rw [heq1]; exact hbucket
        have heq2 := toggle_select_group (toggle_select st) hc1 hrow1 hbucket1
        have hall2 : indices.all
            (fun i => (toggle_select st).selected_jobs.contains i) = true := by
          rw [all_contains_iff]
          intro i hi
          exact (hst1 i).mpr (Or.inr hi)
        rw [if_pos hall2] at heq2
        rw [heq2]
        simp only [List.mem_filter, containsDecide, Bool.not_eq_true',
          decide_eq_false_iff_not]
        rw [hst1 j]
        constructor
        · rintro ⟨h1 | h1, h2⟩
          · exact h1
          · exact absurd h1 h2
        · intro h1
          exact ⟨Or.inl h1, fun hj => hpre j hj h1⟩
    · intro _ i hi
      exact (hst1 i).mpr (Or.inr hi)
    · intro hpre
      exact absurd hpre hnall

/-- Claim C4 counterexample: from a partial selection `{0}` of group
`"200"`'s members `{0, 1}` with the cursor on the header, toggling selection
twice does not restore the Selection Set — member 0 was selected before and
is unselected after. -/
theorem claim_C4_counterexample :
    partialSelState.state = some 0
    ∧ partialSelState.visible_rows.get? 0 = some (VisibleRow.group ("200") 0)
    ∧ 0 ∈ partialSelState.selected_jobs
    ∧ 0 ∉ (toggle_select (toggle_select partialSelState)).selected_jobs := by
  decide

/-- Witness for claim C4 (amended): from a state where all members of
`"200"` are selected, the double toggle restores the Selection Set. -/
theorem claim_C4_witness :
    (allSelState.state = some 0
      ∧ allSelState.visible_rows.get? 0 = some (VisibleRow.group ("200") 0)
      ∧ mapGet? allSelState.group_map ("200") = some [0, 1]
      ∧ (∀ i ∈ [0, 1], i ∈ allSelState.selected_jobs))
    ∧ (∀ j, j ∈ (toggle_select (toggle_select allSelState)).selected_jobs ↔
        j ∈ allSelState.selected_jobs) :=
  ⟨⟨by decide, by decide, by decide, by decide⟩,
    (claim_C4_amended allSelState 0 ("200") 0 [0, 1]
      (by decide) (by decide) (by decide)).1 (Or.inl (by decide))⟩

theorem toggleExpandResult_expanded (st : JobsList) (key : String) :
    (toggleExpandResult st key).expanded_groups = flipList st key := by
  unfold toggleExpandResult flipList
  by_cases hexp : key ∈ st.expanded_groups
  · rw [if_pos hexp, if_pos hexp]
    simp only []
    split <;> rfl
  · rw [if_neg hexp, if_neg hexp]
    simp only []
    split <;> rfl

theorem toggleExpandResult_jobs (st : JobsList) (key : String) :
    (toggleExpandResult st key).jobs = st.jobs := by
  unfold toggleExpandResult
  by_cases hexp : key ∈ st.expanded_groups
  · rw [if_pos hexp]; simp only []; split <;> rfl
  · rw [if_neg hexp]; simp only []; split <;> rfl

theorem toggleExpandResult_selected (st : JobsList) (key : String) :
    (toggleExpandResult st key).selected_jobs = st.selected_jobs := by
  unfold toggleExpandResult
  by_cases hexp : key ∈ st.expanded_groups
  · rw [if_pos hexp]; simp only []; split <;> rfl
  · rw [if_neg hexp]; simp only []; split <;> rfl

theorem toggleExpandResult_rows (st : JobsList) (key : String) :
    (toggleExpandResult st key).visible_rows
      = buildVisibleRows st.jobs (buildGroupMap st.jobs) (flipList st key) := by
  unfold toggleExpandResult flipList
  by_cases hexp : key ∈ st.expanded_groups
  · rw [if_pos hexp, if_pos hexp]
    simp only []
    split <;> rfl
  · rw [if_neg hexp, if_neg hexp]
    simp only []
    split <;> rfl

theorem toggleExpandResult_state_some (st : JobsList) (key : String) (idx : Nat)
    (h : position (isGroupOf key)
        (buildVisibleRows st.jobs (buildGroupMap st.jobs) (flipList st key)) = some idx) :
    (toggleExpandResult st key).state = some idx := by
  unfold toggleExpandResult
  unfold flipList at h
  by_cases hexp : key ∈ st.expanded_groups
  · rw [if_pos hexp] at h
    rw [if_pos hexp]
    have h' : position (isGroupOf key) (rebuild_groups_and_rows
        { st with expanded_groups :=
            st.expanded_groups.filter (fun k => !(k == key)) }).visible_rows
        = some idx := h
    simp only []
    rw [h']
  · rw [if_neg hexp] at h
    rw [if_neg hexp]
    have h' : position (isGroupOf key) (rebuild_groups_and_rows
        { st with expanded_groups := key :: st.expanded_groups }).visible_rows
        = some idx := h
    simp only []
    rw [h']

theorem toggleExpandResult_state_none (st : JobsList) (key : String)
    (h : position (isGroupOf key)
        (buildVisibleRows st.jobs (buildGroupMap st.jobs) (flipList st key)) = none) :
    (toggleExpandResult st key).state = st.state := by
  unfold toggleExpandResult
  unfold flipList at h
  by_cases hexp : key ∈ st.expanded_groups
  · rw [if_pos hexp] at h
    rw [if_pos hexp]
    have h' : position (isGroupOf key) (rebuild_groups_and_rows
        { st with expanded_groups :=
            st.expanded_groups.filter (fun k => !(k == key)) }).visible_rows
        = none := h
    simp only []
    rw [h']
    rfl
  · rw [if_neg hexp] at h
    rw [if_neg hexp]
    have h' : position (isGroupOf key) (rebuild_groups_and_rows
        { st with expanded_groups := key :: st.expanded_groups }).visible_rows
        = none := h
    simp only []
    rw [h']
    rfl

theorem mem_flipList (st : JobsList) (key k2 : String) :
    k2 ∈ flipList st key ↔
      (if k2 = key then key ∉ st.expanded_groups else k2 ∈ st.expanded_groups) := by
  unfold flipList
  by_cases hexp : key ∈ st.expanded_groups
  · rw [if_pos hexp]
    by_cases hk : k2 = key
    · subst hk
      simp [List.mem_filter, hexp]
    · simp [List.mem_filter, hk]
  · rw [if_neg hexp]
    by_cases hk : k2 = key
    · subst hk
      simp [hexp]
    · simp [List.mem_cons, hk, hexp]

theorem toggleExpandPost_of (st : JobsList) (key : String)
    (heq : toggle_group_expand st = toggleExpandResult st key) :
    toggleExpandPost st key := by
  unfold toggleExpandPost
  rw [heq]
  refine ⟨?_, toggleExpandResult_jobs st key, toggleExpandResult_selected st key,
    ?_, ?_, ?_, ?_⟩
  · intro k2
    rw [toggleExpandResult_expanded]
    exact mem_flipList st key k2
  · rw [toggleExpandResult_rows, toggleExpandResult_expanded]
  · intro idx h
    rw [toggleExpandResult_rows] at h
    exact toggleExpandResult_state_some st key idx h
  · intro h
    rw [toggleExpandResult_rows] at h
    exact toggleExpandResult_state_none st key h
  · constructor
    · intro hnone rep2 hmem
      have := (position_eq_none _ _).mp hnone _ hmem
      simp [isGroupOf] at this
    · intro hno
      rw [position_eq_none]
      intro r hr
      cases r with
      | group k rep2 =>
          simp only [isGroupOf, decide_eq_false_iff_not]
          intro hk
          subst hk
          exact hno rep2 hr
      | job i => rfl

theorem toggle_group_expand_on_group (st : JobsList) (v : Nat) (key : String) (rep : Nat)
    (hc : st.state = some v)
    (hrow : st.visible_rows.get? v = some (VisibleRow.group key rep)) :
    toggle_group_expand st = toggleExpandResult st key := by
  unfold toggle_group_expand toggleExpandResult
  rw [hc]
  simp only [hrow]

theorem toggle_group_expand_on_job (st : JobsList) (v : Nat) (j : Nat)
    (hc : st.state = some v)
    (hrow : st.visible_rows.get? v = some (VisibleRow.job j)) :
    toggle_group_expand st
      = toggleExpandResult st (compute_group_key (st.jobs.getD j default)) := by
  unfold toggle_group_expand toggleExpandResult
  rw [hc]
  simp only [hrow]

/-- Claim C8: `toggle_group_expand` resolves the group key of the row under
the cursor (directly for a header, recomputed for a job row), flips that
key's Expansion-Set membership, rebuilds the rows, and moves the cursor to
the key's header row when the rebuilt rows contain one, leaving the cursor
as-is otherwise; with no cursor set the whole operation changes nothing. -/
theorem claim_C8 (st : JobsList) :
    (st.state = none → toggle_group_expand st = st)
    ∧ (∀ v key rep, st.state = some v →
        st.visible_rows.get? v = some (VisibleRow.group key rep) →
        toggleExpandPost st key)
    ∧ (∀ v j, st.state = some v →
        st.visible_rows.get? v = some (VisibleRow.job j) →
        toggleExpandPost st (compute_group_key (st.jobs.getD j default))) := by
  refine ⟨?_, ?_, ?_⟩
  · intro h
    unfold toggle_group_expand
    rw [h]
  · intro v key rep hc hrow
    exact toggleExpandPost_of st key (toggle_group_expand_on_group st v key rep hc hrow)
  · intro v j hc hrow
    exact toggleExpandPost_of st _ (toggle_group_expand_on_job st v j hc hrow)

/-- Witness for claim C8: toggling group expansion with the cursor on the
`"200"` header of the collapsed two-member snapshot. -/
theorem claim_C8_witness :
    ((update_jobs JobsList.new [⟨"200_1", ""⟩, ⟨"200_2", ""⟩]).state = some 0
      ∧ (update_jobs JobsList.new [⟨"200_1", ""⟩, ⟨"200_2", ""⟩]).visible_rows.get? 0
          = some (VisibleRow.group ("200") 0))
    ∧ toggleExpandPost (update_jobs JobsList.new [⟨"200_1", ""⟩, ⟨"200_2", ""⟩]) ("200") :=
  ⟨⟨by decide, by decide⟩,
    (claim_C8 (update_jobs JobsList.new [⟨"200_1", ""⟩, ⟨"200_2", ""⟩])).2.1 0 ("200") 0
      (by decide) (by decide)⟩

/-- Witness for claim C5 (amended): updating from a cursor-at-0 state to an
empty snapshot leaves the cursor at `some 0` (via the reset branch) although
the row count is 0. -/
theorem claim_C5_witness :
    ((update_jobs JobsList.new [⟨"a", "a"⟩]).state = some 0
      ∧ (update_jobs (update_jobs JobsList.new [⟨"a", "a"⟩]) []).visible_rows.length ≤ 0)
    ∧ (update_jobs (update_jobs JobsList.new [⟨"a", "a"⟩]) []).state = some 0 :=
  ⟨⟨by decide, by decide⟩,
    (claim_C5_amended (update_jobs JobsList.new [⟨"a", "a"⟩]) []).1 0
      (by decide) (by decide)⟩

/-- Witness for claim C1 (amended): after replacing the snapshot with a job
whose id is `"b"` while index 0 was selected, the id read resolves against
the new snapshot. -/
theorem claim_C1_witness :
    ("b" ∈ get_selected_jobs (update_jobs (toggle_select (update_jobs JobsList.new
        [⟨"a", "a"⟩])) [⟨"b", "b"⟩]))
    ∧ ∃ j ∈ [(⟨"b", "b"⟩ : Job)], j.id = "b" :=
  ⟨by decide,
    (claim_C1_amended (toggle_select (update_jobs JobsList.new [⟨"a", "a"⟩]))
      [⟨"b", "b"⟩]).2 ("b") (by decide)⟩

/-- Claim C6 (code bug): the Name cell byte-slices `&job.name[0..27]`.  For
the 31-byte name of 26 `a`s followed by `é` and `xxx`, byte 27 falls inside
the two-byte `é`, the slice is not on a character boundary, and the render
panics (modelled as `none`) instead of substituting silently — name rendering
is not total for multi-byte names.  All-ASCII names behave as specified:
longer than 30 truncates to the first 27 characters plus an ellipsis, 30 or
fewer renders unchanged. -/
theorem claim_C6 :
    30 < utf8Len ("aaaaaaaaaaaaaaaaaaaaaaaaaaéxxx" : String).data
    ∧ renderNameCell ("aaaaaaaaaaaaaaaaaaaaaaaaaaéxxx") = none
    ∧ renderNameCell ("aaaaaaaaaaaaaaaaaaaaaaaaaaaaaaa")
        = some "aaaaaaaaaaaaaaaaaaaaaaaaaaa..."
    ∧ renderNameCell ("short") = some "short" := by
  decide
